import Mathlib

/-!
Verification of the ldapvi edit-diff pipeline core against its
natural-language specification.

The core sources (diff.c, parse.c, parseldif.c, data.c, print.c) are not
part of the source tree at hand; only their test suites are.  The
definitions below are therefore modelled from the specification
(spec.md sections 3, 4 and 8), with every behaviour that the test suites
pin down (exact return codes, exact printed bytes, exact parse results)
reproduced faithfully.  Byte strings are modelled as `List Char`
(each `Char` standing for one byte), streams as byte lists with explicit
positions, and the C out-parameter style as functions returning values
or `Except`.
-/

namespace Ldapvi

/-- Byte strings: one `Char` per byte of the C byte buffer. -/
abbrev Bytes := List Char

/-- Convenience conversion used to write concrete test inputs. -/
def str (s : String) : Bytes := s.toList

/-! ## Data model (data.c)

An entry is a DN plus an ordered list of attributes, each an attribute
description paired with an ordered list of byte-buffer values.
Attribute descriptions compare case-insensitively (ASCII case fold,
as `strcasecmp` does). -/

/-- ASCII lower-casing of one byte, as `tolower` in the C locale. -/
def lowerChar (c : Char) : Char :=
  if 'A' ≤ c ∧ c ≤ 'Z' then Char.ofNat (c.toNat + 32) else c

/-- Case-insensitive comparison of attribute descriptions. -/
def adEq (a b : Bytes) : Bool := a.map lowerChar == b.map lowerChar

/-- In-memory LDAP entry: DN plus attribute list (data.c `tentry`). -/
structure tentry where
  dn : Bytes
  attrs : List (Bytes × List Bytes)
deriving DecidableEq, Repr

/-- All values an entry holds under a given attribute description,
in document order, matching case-insensitively. -/
def valuesOf (e : tentry) (ad : Bytes) : List Bytes :=
  ((e.attrs.filter fun p => adEq p.1 ad).map Prod.snd).flatten

/-- Append one value under a description, merging case-insensitively
with an existing attribute as `entry_find_attribute` + `attribute_append_value`
do: the first matching attribute receives the value, otherwise a new
attribute is appended at the end. -/
def appendAttrValue : List (Bytes × List Bytes) → Bytes → Bytes →
    List (Bytes × List Bytes)
  | [], ad, v => [(ad, [v])]
  | (a, vs) :: rest, ad, v =>
    if adEq a ad then (a, vs ++ [v]) :: rest
    else (a, vs) :: appendAttrValue rest ad v

/-- Fold a list of (description, value) pairs into an attribute list,
merging repeated descriptions as the parsers do. -/
def collectAttrs (ps : List (Bytes × Bytes)) : List (Bytes × List Bytes) :=
  ps.foldl (fun acc p => appendAttrValue acc p.1 p.2) []

/-! ## Modifications (data.c `LDAPMod`) -/

inductive ModOp | modAdd | modDelete | modReplace
deriving DecidableEq, Repr

structure LDAPMod where
  op : ModOp
  ad : Bytes
  values : List Bytes
deriving DecidableEq, Repr

/-- Entry to modification array: one ADD per attribute in document
order, each carrying all values (data.c `entry2mods`). -/
def entry2mods (e : tentry) : List LDAPMod :=
  e.attrs.map fun p => ⟨ModOp.modAdd, p.1, p.2⟩

/-! ## DN arithmetic

The rename computation needs the leftmost RDN of a DN (up to the first
unescaped comma) and the suffix after it.  A comma preceded by an odd
number of backslashes is not a separator. -/

/-- Split a DN at its first unescaped comma; `none` when there is no
unescaped comma.  A backslash always escapes the byte after it, so a
comma behind an odd-length backslash run is skipped. -/
def splitUnescapedComma : Bytes → Option (Bytes × Bytes)
  | [] => none
  | '\\' :: c :: rest =>
    (splitUnescapedComma rest).map fun p => ('\\' :: c :: p.1, p.2)
  | ',' :: rest => some ([], rest)
  | c :: rest => (splitUnescapedComma rest).map fun p => (c :: p.1, p.2)

/-- Leftmost RDN of a DN (the whole DN when it has no unescaped comma). -/
def dnRdn (dn : Bytes) : Bytes :=
  match splitUnescapedComma dn with
  | some p => p.1
  | none => dn

/-- Parent of a DN: the suffix after the first unescaped comma, `none`
for a root-level DN without one. -/
def dnParent (dn : Bytes) : Option Bytes :=
  (splitUnescapedComma dn).map Prod.snd

/-- Split a byte string at its first `=`. -/
def splitEq : Bytes → Option (Bytes × Bytes)
  | [] => none
  | '=' :: rest => some ([], rest)
  | c :: rest => (splitEq rest).map fun p => (c :: p.1, p.2)

/-- Attribute description and value of the leftmost RDN of a DN;
`none` when the RDN has no `=`. -/
def rdnOf (dn : Bytes) : Option (Bytes × Bytes) := splitEq (dnRdn dn)

/-! ## RDN frobbing (diff.c `frob_ava`, `frob_rdn`)

These check for, add, or remove the attribute-value assertion of an RDN
inside an entry.  The C functions return 0 on success and -1 on failure
and mutate the entry in place; the model returns the code paired with
the updated entry. -/

inductive FrobMode | check | checkNone | insert | remove
deriving DecidableEq, Repr

/-- Remove the first occurrence of a value from a value list. -/
def removeValue : List Bytes → Bytes → List Bytes
  | [], _ => []
  | v :: vs, w => if v = w then vs else v :: removeValue vs w

/-- Update the first attribute matching `ad` (case-insensitively) with
`f`; if none matches, append `new` when provided. -/
def updateAttr (attrs : List (Bytes × List Bytes)) (ad : Bytes)
    (f : List Bytes → List Bytes) (new : Option (List Bytes)) :
    List (Bytes × List Bytes) :=
  match attrs with
  | [] => match new with
    | some vs => [(ad, vs)]
    | none => []
  | (a, vs) :: rest =>
    if adEq a ad then (a, f vs) :: rest
    else (a, vs) :: updateAttr rest ad f new

/-- diff.c `frob_ava`: check, check-absence, add or remove an
attribute-value assertion. -/
def frob_ava (e : tentry) (mode : FrobMode) (ad v : Bytes) : Int × tentry :=
  match mode with
  | .check =>
    match e.attrs.find? fun p => adEq p.1 ad with
    | some p => (if v ∈ p.2 then 0 else -1, e)
    | none => (-1, e)
  | .checkNone =>
    match e.attrs.find? fun p => adEq p.1 ad with
    | some p => (if v ∈ p.2 then -1 else 0, e)
    | none => (0, e)
  | .insert =>
    match e.attrs.find? fun p => adEq p.1 ad with
    | some p =>
      if v ∈ p.2 then (0, e)
      else (0, { e with attrs := updateAttr e.attrs ad (fun vs => vs ++ [v]) none })
    | none => (0, { e with attrs := e.attrs ++ [(ad, [v])] })
  | .remove =>
    (0, { e with attrs := updateAttr e.attrs ad (fun vs => removeValue vs v) none })

/-- diff.c `frob_rdn`: apply `frob_ava` to the attribute-value
assertion of the leftmost RDN of `dn`; fails when the RDN has no `=`. -/
def frob_rdn (e : tentry) (dn : Bytes) (mode : FrobMode) : Int × tentry :=
  match rdnOf dn with
  | none => (-1, e)
  | some av => frob_ava e mode av.1 av.2

/-- The values of the entry's first attribute matching the leftmost RDN
attribute of `dn`, used to phrase rename validation as the spec does. -/
def rdnAttrValues (e : tentry) (dn : Bytes) : List Bytes :=
  match rdnOf dn with
  | none => []
  | some av =>
    match e.attrs.find? fun p => adEq p.1 av.1 with
    | some p => p.2
    | none => []

/-- Spec-side predicate: the entry carries the RDN value of `dn` among
the values of its RDN attribute (the first attribute matching the RDN
attribute description case-insensitively). -/
def hasRdnValue (e : tentry) (dn : Bytes) : Bool :=
  match rdnOf dn with
  | none => false
  | some av =>
    match e.attrs.find? fun p => adEq p.1 av.1 with
    | some p => av.2 ∈ p.2
    | none => false

/-- diff.c `validate_rename`: both DNs must be non-empty, the clean
entry must contain its own RDN value; `deleteoldrdn` is 0 when the data
entry still contains the clean RDN value in the same attribute and 1
otherwise.  `none` models the C return code -1, `some d` success with
`deleteoldrdn = d`. -/
def validate_rename (clean data : tentry) : Option Nat :=
  if clean.dn = [] ∨ data.dn = [] then none
  else if (frob_rdn clean clean.dn .check).1 = -1 then none
  else if (frob_rdn data clean.dn .checkNone).1 = 0 then some 1 else some 0

/-! ## Offset marking (diff.c `long_array_invert`) -/

/-- The marking transform applied by the diff engine to a consumed
clean-file offset. -/
def invertOffset (o : Int) : Int := -(o + 2)

/-- diff.c `long_array_invert`: invert one slot of the offsets array in
place. -/
def long_array_invert (a : List Int) (i : Nat) : List Int :=
  a.set i (invertOffset (a.getD i 0))

/-! ## Parser infrastructure

Streams are byte lists; a parser is handed an absolute byte position.
Physical lines are split at LF; a trailing CR is stripped (CRLF input).
In the LDIF dialect a physical line whose first byte is a space
continues the previous logical line. -/

instance {α β : Type} [DecidableEq α] [DecidableEq β] :
    DecidableEq (Except α β) := fun a b =>
  match a, b with
  | .error x, .error y => decidable_of_iff (x = y) (by simp)
  | .error _, .ok _ => isFalse (by simp)
  | .ok _, .error _ => isFalse (by simp)
  | .ok x, .ok y => decidable_of_iff (x = y) (by simp)

/-- Error kinds distinguished by the core (section 7 of the spec).
`extFile` marks a `file://` URL value, whose content lives outside the
byte streams modelled here. -/
inductive PErr
  | badSyntax | badEncoding | badVersion | notSupported | badKey | extFile
deriving DecidableEq, Repr

/-- Split a stream into complete physical lines (without their LF) plus
an unterminated trailing fragment, if any. -/
def splitLines : Bytes → List Bytes × Option Bytes
  | [] => ([], none)
  | '\n' :: rest =>
    let r := splitLines rest
    ([] :: r.1, r.2)
  | c :: rest =>
    match splitLines rest with
    | ([], none) => ([], some [c])
    | ([], some p) => ([], some (c :: p))
    | (l :: ls, p) => ((c :: l) :: ls, p)

/-- Strip one trailing CR, accepting CRLF line endings. -/
def stripCR (l : Bytes) : Bytes :=
  if l.getLast? = some '\r' then l.dropLast else l

/-- Does a physical line continue the previous logical line? -/
def isCont : Bytes → Bool
  | ' ' :: _ => true
  | _ => false

def headIsCont : List Bytes → Bool
  | [] => false
  | l :: _ => isCont l

/-- Join physical lines into logical lines: each result is the folded
content (continuation bytes stripped, CR removed) paired with the raw
byte length consumed from the stream, LF bytes included. -/
def logicalLines : List Bytes → List (Bytes × Nat)
  | [] => []
  | l :: rest =>
    match logicalLines rest with
    | [] => [(stripCR l, l.length + 1)]
    | (c, n) :: ls =>
      if headIsCont rest then (stripCR l ++ c.drop 1, l.length + 1 + n) :: ls
      else (stripCR l, l.length + 1) :: (c, n) :: ls

/-- Leading spaces after a value colon are not part of the value. -/
def dropSpaces (b : Bytes) : Bytes := b.dropWhile (fun c => c = ' ')

/-- Split a logical line at its first colon into attribute description
and raw value part. -/
def splitColon : Bytes → Option (Bytes × Bytes)
  | [] => none
  | ':' :: rest => some ([], rest)
  | c :: rest => (splitColon rest).map fun p => (c :: p.1, p.2)

/-! ## Base64 (standard alphabet, `=` padding) -/

/-- Index of a byte in the base64 alphabet. -/
def b64Index (c : Char) : Option Nat :=
  if 'A' ≤ c ∧ c ≤ 'Z' then some (c.toNat - 65)
  else if 'a' ≤ c ∧ c ≤ 'z' then some (c.toNat - 97 + 26)
  else if '0' ≤ c ∧ c ≤ '9' then some (c.toNat - 48 + 52)
  else if c = '+' then some 62
  else if c = '/' then some 63
  else none

/-- Byte value to base64 alphabet character. -/
def b64Char (n : Nat) : Char :=
  if n < 26 then Char.ofNat (65 + n)
  else if n < 52 then Char.ofNat (97 + (n - 26))
  else if n < 62 then Char.ofNat (48 + (n - 52))
  else if n = 62 then '+' else '/'

/-- Base64 decoding; any byte outside the alphabet (except valid
padding) is an error. -/
def b64decode : Bytes → Except PErr Bytes
  | [] => .ok []
  | a :: b :: '=' :: '=' :: [] =>
    match b64Index a, b64Index b with
    | some x, some y =>
      if y % 16 = 0 then .ok [Char.ofNat (x * 4 + y / 16)] else .error .badEncoding
    | _, _ => .error .badEncoding
  | a :: b :: c :: '=' :: [] =>
    match b64Index a, b64Index b, b64Index c with
    | some x, some y, some z =>
      if z % 4 = 0 then
        .ok [Char.ofNat (x * 4 + y / 16), Char.ofNat (y % 16 * 16 + z / 4)]
      else .error .badEncoding
    | _, _, _ => .error .badEncoding
  | a :: b :: c :: d :: rest =>
    match b64Index a, b64Index b, b64Index c, b64Index d with
    | some x, some y, some z, some w =>
      (b64decode rest).map fun tl =>
        Char.ofNat (x * 4 + y / 16) :: Char.ofNat (y % 16 * 16 + z / 4) ::
        Char.ofNat (z % 4 * 64 + w) :: tl
    | _, _, _, _ => .error .badEncoding
  | _ => .error .badEncoding

/-- Base64 encoding of a byte list. -/
def b64encode : Bytes → Bytes
  | [] => []
  | [a] =>
    [b64Char (a.toNat / 4), b64Char (a.toNat % 4 * 16), '=', '=']
  | [a, b] =>
    [b64Char (a.toNat / 4), b64Char (a.toNat % 4 * 16 + b.toNat / 16),
     b64Char (b.toNat % 16 * 4), '=']
  | a :: b :: c :: rest =>
    b64Char (a.toNat / 4) :: b64Char (a.toNat % 4 * 16 + b.toNat / 16) ::
    b64Char (b.toNat % 16 * 4 + c.toNat / 64) :: b64Char (c.toNat % 64) ::
    b64encode rest

/-! ## LDIF parser (parseldif.c)

Value encodings after the attribute colon: raw (leading spaces
stripped), `::` base64, `:<` file URL (only the `file` scheme is
recognized; reading the file is outside this embedding and surfaces as
the distinguished error `extFile`). -/

/-- Decode the part of an LDIF logical line after the name colon. -/
def ldifValue (raw : Bytes) : Except PErr Bytes :=
  match raw with
  | ':' :: rest => b64decode (dropSpaces rest)
  | '<' :: rest =>
    if List.isPrefixOf (str "file://") (dropSpaces rest) then .error .extFile
    else .error .badEncoding
  | rest => .ok (dropSpaces rest)

/-- Name and decoded value of an LDIF attribute logical line; checks
the name for NUL bytes and non-emptiness. -/
def ldifNameValue (c : Bytes) : Except PErr (Bytes × Except PErr Bytes) :=
  match splitColon c with
  | none => .error .badSyntax
  | some (name, raw) =>
    if name = [] ∨ '\x00' ∈ name then .error .badSyntax
    else .ok (name, ldifValue raw)

/-- A record as delimited on the stream, before interpretation:
positions, the dn logical line, and the body logical lines (terminating
blank line consumed, not included). -/
structure RawRec where
  startPos : Nat
  endPos : Nat
  dnLine : Bytes
  body : List Bytes
deriving DecidableEq, Repr

/-- Consume body logical lines up to the blank terminator or clean
end-of-stream; `unt` records whether the stream ends in an unterminated
physical line, which is a syntax error when reached. -/
def ldifBody : List (Bytes × Nat) → Nat → Bool → Except PErr (List Bytes × Nat)
  | [], pos, unt => if unt then .error .badSyntax else .ok ([], pos)
  | (c, n) :: rest, pos, unt =>
    if c = [] then .ok ([], pos + n)
    else (ldifBody rest (pos + n) unt).map fun r => (c :: r.1, r.2)

/-- Skip blank lines, comment lines and (at byte position 0 only) the
`version: 1` header; stop at the `dn:` line of the next record.
Returns `none` at end of stream. -/
def ldifPre : List (Bytes × Nat) → Nat → Bool → Except PErr (Option RawRec)
  | [], _, unt => if unt then .error .badSyntax else .ok none
  | (c, n) :: rest, pos, unt =>
    if c = [] then ldifPre rest (pos + n) unt
    else if headIsCont [c] then ldifPre rest (pos + n) unt
    else match c with
    | '#' :: _ => ldifPre rest (pos + n) unt
    | _ =>
      match splitColon c with
      | some (name, raw) =>
        if name = str "version" ∧ pos = 0 then
          if dropSpaces raw = str "1" then ldifPre rest (pos + n) unt
          else .error .badVersion
        else if name = str "dn" then
          (ldifBody rest (pos + n) unt).map fun r =>
            some ⟨pos, r.2, c, r.1⟩
        else .error .badSyntax
      | none => .error .badSyntax

/-- Delimit the LDIF record at `pos`: split the stream suffix into
logical lines and walk preamble plus body. -/
def ldifRawRec (s : Bytes) (pos : Nat) : Except PErr (Option RawRec) :=
  let pr := splitLines (s.drop pos)
  ldifPre (logicalLines pr.1) pos pr.2.isSome

/-- Normalized changetype of a body: scan for a `changetype:` line;
absent means `add`.  `modrdn` and `moddn` both classify as `rename`. -/
def ldifChangetype : List Bytes → Except PErr Bytes
  | [] => .ok (str "add")
  | c :: rest =>
    match splitColon c with
    | some (name, raw) =>
      if name = str "changetype" then
        let v := dropSpaces raw
        if v = str "add" then .ok (str "add")
        else if v = str "delete" then .ok (str "delete")
        else if v = str "modify" then .ok (str "modify")
        else if v = str "modrdn" ∨ v = str "moddn" then .ok (str "rename")
        else .error .badSyntax
      else ldifChangetype rest
    | none => ldifChangetype rest

/-- Record key: the proprietary `ldapvi-key:` value when the record
classifies as `add`, the change keyword otherwise. -/
def ldifKey (body : List Bytes) : Except PErr Bytes :=
  (ldifChangetype body).map fun ct =>
    if ct = str "add" then
      match body.find? (fun c => (splitColon c).elim false
          (fun p => p.1 = str "ldapvi-key")) with
      | some c =>
        match splitColon c with
        | some p => dropSpaces p.2
        | none => str "add"
      | none => str "add"
    else ct

/-- Positions and key of a record: what `ldif_peek_entry` and
`ldif_skip_entry` report. -/
structure RecInfo where
  key : Bytes
  pos : Nat
  endPos : Nat
deriving DecidableEq, Repr

/-- Model of `ldif_peek_entry`/`ldif_skip_entry`: classify the record
at `pos` and find its extent.  `none` is end of stream. -/
def ldif_scan (s : Bytes) (pos : Nat) : Except PErr (Option RecInfo) :=
  (ldifRawRec s pos).bind fun
    | none => .ok none
    | some rr => (ldifKey rr.body).map fun k => some ⟨k, rr.startPos, rr.endPos⟩

/-- Decode the dn line of a record; the distinguished name must
syntactically be a DN (contain `=`). -/
def ldifDn (rr : RawRec) : Except PErr Bytes :=
  (ldifNameValue rr.dnLine).bind fun nv =>
    if nv.1 = str "dn" then
      nv.2.bind fun dn =>
        if '=' ∈ dn then .ok dn else .error .badSyntax
    else .error .badSyntax

/-- Interpret the body of an attrval (`add`-class) record: comments,
the `changetype:` line and the `ldapvi-key:` line are skipped, a
`control:` line is not supported, a lone `-` is a syntax error, and
every other line must be a well-formed attribute line. -/
def ldifAttrs : List Bytes → Except PErr (List (Bytes × Bytes))
  | [] => .ok []
  | c :: rest =>
    match c with
    | '#' :: _ => ldifAttrs rest
    | _ =>
      if c = ['-'] then .error .badSyntax
      else (ldifNameValue c).bind fun nv =>
        if nv.1 = str "changetype" ∨ nv.1 = str "ldapvi-key" then ldifAttrs rest
        else if nv.1 = str "control" then .error .notSupported
        else nv.2.bind fun v =>
          (ldifAttrs rest).map fun ps => (nv.1, v) :: ps

/-- Model of `ldif_read_entry`: parse the record at `pos` into its key
and entry.  Only attrval records carry an entry; the diff engine reads
change-keyword records through the specialized readers below. -/
def ldif_read (s : Bytes) (pos : Nat) : Except PErr (Option (RecInfo × tentry)) :=
  (ldifRawRec s pos).bind fun
    | none => .ok none
    | some rr =>
      (ldifKey rr.body).bind fun k =>
      (ldifChangetype rr.body).bind fun ct =>
      (ldifDn rr).bind fun dn =>
        if ct = str "add" then
          (ldifAttrs rr.body).map fun ps =>
            some (⟨k, rr.startPos, rr.endPos⟩, ⟨dn, collectAttrs ps⟩)
        else .error .badSyntax

/-- Body lines that carry record content: comments and the
`changetype:` line are transparent. -/
def ldifSignificant (body : List Bytes) : List Bytes :=
  body.filter fun c =>
    match c with
    | '#' :: _ => false
    | _ => (splitColon c).elim true fun p => ¬ p.1 = str "changetype"

/-- Model of `ldif_read_delete`: the body of a delete record must be
empty apart from the changetype line and comments. -/
def ldif_read_delete (s : Bytes) (pos : Nat) : Except PErr Bytes :=
  (ldifRawRec s pos).bind fun
    | none => .error .badSyntax
    | some rr =>
      (ldifChangetype rr.body).bind fun ct =>
        if ct = str "delete" then
          (ldifDn rr).bind fun dn =>
            if ldifSignificant rr.body = [] then .ok dn else .error .badSyntax
        else .error .badKey

/-- One parsed block header op. -/
def ldifModOp (name : Bytes) : Option ModOp :=
  if name = str "add" then some .modAdd
  else if name = str "delete" then some .modDelete
  else if name = str "replace" then some .modReplace
  else none

/-- Walk the body of a modify record: blocks of `op: attr` header,
`attr: value` lines whose name must match the header, terminated by a
`-` line.  ADD blocks with no values are rejected; DELETE and REPLACE
blocks may be empty.  The second argument is the open block, if any. -/
def ldifModGo : List Bytes → Option (ModOp × Bytes × List Bytes) →
    Except PErr (List LDAPMod)
  | [], none => .ok []
  | [], some _ => .error .badSyntax
  | c :: rest, none =>
    (match c with
    | '#' :: _ => ldifModGo rest none
    | _ =>
      (ldifNameValue c).bind fun nv =>
        if nv.1 = str "changetype" then ldifModGo rest none
        else match ldifModOp nv.1 with
        | some op =>
          nv.2.bind fun ad => ldifModGo rest (some (op, ad, []))
        | none => .error .badSyntax)
  | c :: rest, some (op, ad, vals) =>
    if c = ['-'] then
      if op = .modAdd ∧ vals = [] then .error .badSyntax
      else (ldifModGo rest none).map fun ms => ⟨op, ad, vals⟩ :: ms
    else match c with
    | '#' :: _ => ldifModGo rest (some (op, ad, vals))
    | _ =>
      (ldifNameValue c).bind fun nv =>
        if adEq nv.1 ad then
          nv.2.bind fun v => ldifModGo rest (some (op, ad, vals ++ [v]))
        else .error .badSyntax

/-- Model of `ldif_read_modify`. -/
def ldif_read_modify (s : Bytes) (pos : Nat) :
    Except PErr (Bytes × List LDAPMod) :=
  (ldifRawRec s pos).bind fun
    | none => .error .badSyntax
    | some rr =>
      (ldifChangetype rr.body).bind fun ct =>
        if ct = str "modify" then
          (ldifDn rr).bind fun dn =>
            (ldifModGo rr.body none).map fun ms => (dn, ms)
        else .error .badKey

/-- Rename-DN synthesis (section 4.D): a present non-empty
`newsuperior` is appended after a comma; a present empty one yields the
bare `newrdn`; an absent one appends the old DN's parent when that
parent is non-empty. -/
def rename_new_dn (olddn newrdn : Bytes) (newsup : Option Bytes) : Bytes :=
  match newsup with
  | some sup => if sup = [] then newrdn else newrdn ++ ',' :: sup
  | none =>
    match dnParent olddn with
    | none => newrdn
    | some par => if par = [] then newrdn else newrdn ++ ',' :: par

/-- Field extraction for a rename record body: `newrdn:` then
`deleteoldrdn: 0|1` then optionally `newsuperior:`, nothing else. -/
def ldifRenameFields (body : List Bytes) :
    Except PErr (Bytes × Nat × Option Bytes) :=
  match ldifSignificant body with
  | [l1, l2] =>
    (ldifNameValue l1).bind fun nv1 =>
    (ldifNameValue l2).bind fun nv2 =>
      if nv1.1 = str "newrdn" ∧ nv2.1 = str "deleteoldrdn" then
        nv1.2.bind fun newrdn =>
        nv2.2.bind fun dor =>
          if dor = str "0" then .ok (newrdn, 0, none)
          else if dor = str "1" then .ok (newrdn, 1, none)
          else .error .badSyntax
      else .error .badSyntax
  | [l1, l2, l3] =>
    (ldifNameValue l1).bind fun nv1 =>
    (ldifNameValue l2).bind fun nv2 =>
    (ldifNameValue l3).bind fun nv3 =>
      if nv1.1 = str "newrdn" ∧ nv2.1 = str "deleteoldrdn" ∧
          nv3.1 = str "newsuperior" then
        nv1.2.bind fun newrdn =>
        nv2.2.bind fun dor =>
        nv3.2.bind fun sup =>
          if dor = str "0" then .ok (newrdn, 0, some sup)
          else if dor = str "1" then .ok (newrdn, 1, some sup)
          else .error .badSyntax
      else .error .badSyntax
  | _ => .error .badSyntax

/-- Model of `ldif_read_rename`: old DN, synthesized new DN and
`deleteoldrdn`. -/
def ldif_read_rename (s : Bytes) (pos : Nat) :
    Except PErr (Bytes × Bytes × Nat) :=
  (ldifRawRec s pos).bind fun
    | none => .error .badSyntax
    | some rr =>
      (ldifChangetype rr.body).bind fun ct =>
        if ct = str "rename" then
          (ldifDn rr).bind fun dn =>
            (ldifRenameFields rr.body).map fun f =>
              (dn, rename_new_dn dn f.1 f.2.2, f.2.1)
        else .error .badKey

/-! ## The parser facade consumed by the diff engine (`tparser`) -/

structure tparser where
  scan : Bytes → Nat → Except PErr (Option RecInfo)
  read : Bytes → Nat → Except PErr (Option (RecInfo × tentry))
  read_del : Bytes → Nat → Except PErr Bytes
  read_mod : Bytes → Nat → Except PErr (Bytes × List LDAPMod)
  read_ren : Bytes → Nat → Except PErr (Bytes × Bytes × Nat)

/-- The LDIF dialect bundled as a parser instance. -/
def ldif_dialect : tparser :=
  ⟨ldif_scan, ldif_read, ldif_read_delete, ldif_read_modify, ldif_read_rename⟩

/-! ## Diff engine (diff.c)

Handler callbacks are modelled as one function from the list of calls
made so far (the handler's user data) and the new call to the C return
code; a negative code aborts the run. -/

/-- One handler invocation. -/
inductive HCall
  | change (n : Int) (olddn newdn : Bytes) (mods : List LDAPMod)
  | hrename (n : Int) (olddn : Bytes) (entry : tentry)
  | hadd (n : Int) (dn : Bytes) (mods : List LDAPMod)
  | hdelete (n : Int) (dn : Bytes)
  | rename0 (n : Int) (olddn newdn : Bytes) (deleteoldrdn : Nat)
deriving DecidableEq, Repr

/-- Handler: previous calls and the new call to the return code. -/
abbrev thandler := List HCall → HCall → Int

/-- Return codes of `compare_streams` as the tests pin them. -/
def rcOk : Int := 0

/-- Fatal syntactic error in the data file (bad key, duplicate or
out-of-range numeric key, parse failure). -/
def rcSyntax : Int := -1

/-- A handler returned a negative code. -/
def rcHandlerAborted : Int := -2

/-- Numeric keys are all-digit tokens. -/
def numericKey (k : Bytes) : Option Nat :=
  if k ≠ [] ∧ k.all fun c => '0' ≤ c ∧ c ≤ '9' then
    some (k.foldl (fun a c => a * 10 + (c.toNat - 48)) 0)
  else none

/-- Bytes `[pos, pos+n)` of a stream, what `fastcmp` reads. -/
def extractRange (s : Bytes) (pos n : Nat) : Bytes := (s.drop pos).take n

/-- Undo the marking of consumed entries: the cleanup loop inverts
every negative slot. -/
def restoreOffsets (a : List Int) : List Int :=
  a.map fun o => if o < 0 then invertOffset o else o

/-- Multiset difference by exact byte equality: remove one occurrence
of each element of `ys` from `xs`. -/
def multisetDiff (xs ys : List Bytes) : List Bytes :=
  ys.foldl (fun acc y => removeValue acc y) xs

/-- Mods for one attribute description in the structural diff:
present in data only yields ADD, present in clean only yields DELETE
with empty values, present in both yields the DELETE/ADD pair of the
multiset differences (the spec permits always emitting the pair in
place of an opportunistic REPLACE). -/
def modsForAd (c d : tentry) (ad : Bytes) : List LDAPMod :=
  let cv := valuesOf c ad
  let dv := valuesOf d ad
  if cv = [] then if dv = [] then [] else [⟨.modAdd, ad, dv⟩]
  else if dv = [] then [⟨.modDelete, ad, []⟩]
  else
    let removed := multisetDiff cv dv
    let added := multisetDiff dv cv
    (if removed = [] then [] else [⟨.modDelete, ad, removed⟩]) ++
    (if added = [] then [] else [⟨.modAdd, ad, added⟩])

/-- Attribute diff of the slow path: every description of `c ∪ d`
except the one matching the RDN of the clean DN, in document order. -/
def compare_entries_mods (c d : tentry) : List LDAPMod :=
  let cads := c.attrs.map Prod.fst
  let dads := (d.attrs.map Prod.fst).filter fun a => ¬ cads.any (adEq a)
  let ads := cads ++ dads
  let ads2 := match rdnOf c.dn with
    | some av => ads.filter fun a => ¬ adEq a av.1
    | none => ads
  (ads2.map (modsForAd c d)).flatten

/-- One main-loop step for the record `r` peeked from the data stream.
Returns the updated offsets and calls, and `some rc` when the run
terminates here. -/
def diffStep (p : tparser) (h : thandler) (clean data : Bytes)
    (offs : List Int) (calls : List HCall) (r : RecInfo) :
    List Int × List HCall × Option Int :=
  match numericKey r.key with
  | some n =>
    if n < offs.length then
      if offs.getD n 0 < 0 then (offs, calls, some rcSyntax)
      else
        match p.scan clean (offs.getD n 0).toNat with
        | .ok (some rc2) =>
          if extractRange clean (offs.getD n 0).toNat (rc2.endPos - (offs.getD n 0).toNat) =
              extractRange data r.pos (rc2.endPos - (offs.getD n 0).toNat) then
            (long_array_invert offs n, calls, none)
          else
            match p.read clean (offs.getD n 0).toNat, p.read data r.pos with
            | .ok (some (_, ce)), .ok (some (_, de)) =>
              if ce.dn = de.dn then
                if compare_entries_mods ce de = [] then
                  (long_array_invert offs n, calls, none)
                else
                  (long_array_invert offs n,
                   calls ++ [HCall.change n ce.dn de.dn (compare_entries_mods ce de)],
                   if h calls (HCall.change n ce.dn de.dn (compare_entries_mods ce de)) < 0
                   then some rcHandlerAborted else none)
              else
                match validate_rename ce de with
                | none => (offs, calls, some rcSyntax)
                | some _ =>
                  (long_array_invert offs n, calls ++ [HCall.hrename n ce.dn de],
                   if h calls (HCall.hrename n ce.dn de) < 0
                   then some rcHandlerAborted else none)
            | _, _ => (offs, calls, some rcSyntax)
        | _ => (offs, calls, some rcSyntax)
    else (offs, calls, some rcSyntax)
  | none =>
    if r.key = str "add" then
      match p.read data r.pos with
      | .ok (some (_, e)) =>
        (offs, calls ++ [HCall.hadd (-1) e.dn (entry2mods e)],
         if h calls (HCall.hadd (-1) e.dn (entry2mods e)) < 0
         then some rcHandlerAborted else none)
      | _ => (offs, calls, some rcSyntax)
    else if r.key = str "replace" then
      match p.read data r.pos with
      | .ok (some (_, e)) =>
        (offs, calls ++ [HCall.change (-1) e.dn e.dn (entry2mods e)],
         if h calls (HCall.change (-1) e.dn e.dn (entry2mods e)) < 0
         then some rcHandlerAborted else none)
      | _ => (offs, calls, some rcSyntax)
    else if r.key = str "delete" then
      match p.read_del data r.pos with
      | .ok dn =>
        (offs, calls ++ [HCall.hdelete (-1) dn],
         if h calls (HCall.hdelete (-1) dn) < 0
         then some rcHandlerAborted else none)
      | .error _ => (offs, calls, some rcSyntax)
    else if r.key = str "modify" then
      match p.read_mod data r.pos with
      | .ok dm =>
        (offs, calls ++ [HCall.change (-1) dm.1 dm.1 dm.2],
         if h calls (HCall.change (-1) dm.1 dm.1 dm.2) < 0
         then some rcHandlerAborted else none)
      | .error _ => (offs, calls, some rcSyntax)
    else if r.key = str "rename" then
      match p.read_ren data r.pos with
      | .ok dd =>
        (offs, calls ++ [HCall.rename0 (-1) dd.1 dd.2.1 dd.2.2],
         if h calls (HCall.rename0 (-1) dd.1 dd.2.1 dd.2.2) < 0
         then some rcHandlerAborted else none)
      | .error _ => (offs, calls, some rcSyntax)
    else (offs, calls, some rcSyntax)

/-- End-of-stream sweep: report every still-unmarked entry as a
deletion, in index order, reading its DN from the clean stream. -/
def diffSweepGo (p : tparser) (h : thandler) (clean : Bytes) :
    List Int → Nat → List HCall → Int × List HCall
  | [], _, calls => (rcOk, calls)
  | o :: rest, i, calls =>
    if o < 0 then diffSweepGo p h clean rest (i + 1) calls
    else
      match p.read clean o.toNat with
      | .ok (some (_, e)) =>
        let c := HCall.hdelete i e.dn
        if h calls c < 0 then (rcHandlerAborted, calls ++ [c])
        else diffSweepGo p h clean rest (i + 1) (calls ++ [c])
      | _ => (rcSyntax, calls)

/-- Fuel bound for the main loop: each record consumes at least one
byte of the data stream. -/
def diffFuel (data : Bytes) : Nat := data.length + 2

/-- Main loop of `compare_streams`, prior to offset restoration. -/
def diffLoop (p : tparser) (h : thandler) (clean data : Bytes) :
    Nat → Nat → List Int → List HCall → Int × List Int × List HCall
  | 0, _, offs, calls => (rcSyntax, offs, calls)
  | fuel + 1, pos, offs, calls =>
    match p.scan data pos with
    | .error _ => (rcSyntax, offs, calls)
    | .ok none =>
      let s := diffSweepGo p h clean offs 0 calls
      (s.1, offs, s.2)
    | .ok (some r) =>
      match diffStep p h clean data offs calls r with
      | (offs2, calls2, some rc) => (rc, offs2, calls2)
      | (offs2, calls2, none) =>
        diffLoop p h clean data fuel r.endPos offs2 calls2

structure DiffResult where
  rc : Int
  offsets : List Int
  calls : List HCall
deriving DecidableEq, Repr

/-- diff.c `compare_streams`: run the main loop and the deletion sweep,
then restore the offsets array on every return path. -/
def compare_streams (p : tparser) (h : thandler) (offsets : List Int)
    (clean data : Bytes) : DiffResult :=
  let r := diffLoop p h clean data (diffFuel data) 0 offsets []
  ⟨r.1, restoreOffsets r.2.1, r.2.2⟩

/-- The records of a stream as the parser enumerates them from
position 0; `none` when the stream does not parse to the end. -/
def recordsFrom (p : tparser) (s : Bytes) : Nat → Nat → Option (List RecInfo)
  | 0, _ => none
  | fuel + 1, pos =>
    match p.scan s pos with
    | .error _ => none
    | .ok none => some []
    | .ok (some r) => (recordsFrom p s fuel r.endPos).map (r :: ·)

def records (p : tparser) (s : Bytes) : Option (List RecInfo) :=
  recordsFrom p s (diffFuel s) 0

/-! ## Theorems -/

section MarkTheorems

/-- C6: the marking transform `o ↦ −(o + 2)` used by the diff engine is
an involution, maps every legal file offset `o ≥ 0` (including 0) to a
strictly negative number, is never the identity on a legal offset, and
`long_array_invert` applied twice to any slot restores the array. -/
theorem long_array_invert_involution :
    (∀ o : Int, invertOffset (invertOffset o) = o) ∧
    (∀ o : Nat, invertOffset o < 0 ∧ invertOffset o ≠ (o : Int)) ∧
    (∀ (a : List Int) (i : Nat),
      long_array_invert (long_array_invert a i) i = a) := by
  have hinv : ∀ o : Int, invertOffset (invertOffset o) = o := by
    intro o
    simp only [invertOffset]
    ring
  refine ⟨hinv, fun o => ⟨?_, ?_⟩, fun a i => ?_⟩
  · simp only [invertOffset]
    omega
  · simp only [invertOffset]
    omega
  · by_cases h : i < a.length
    · have hset : i < (a.set i (invertOffset (a.getD i 0))).length := by
        simpa using h
      have hx : (a.set i (invertOffset (a.getD i 0))).getD i 0
          = invertOffset (a.getD i 0) := by
        rw [List.getD_eq_getElem _ _ hset]
        simp
      simp only [long_array_invert, hx, hinv, List.set_set]
      rw [List.getD_eq_getElem _ _ h]
      apply List.ext_getElem
      · simp
      · intro n h1 h2
        rw [List.getElem_set]
        split
        · rename_i hh
          subst hh
          rfl
        · rfl
    · have h1 : a.set i (invertOffset (a.getD i 0)) = a :=
        List.set_eq_of_length_le (by omega)
      simp only [long_array_invert, h1]

end MarkTheorems

section RenameValidationTheorems

/-- `frob_rdn` in CHECK mode fails exactly when the entry lacks its RDN
value. -/
theorem frob_check_eq (e : tentry) (dn : Bytes) :
    ((frob_rdn e dn .check).1 = -1) ↔ hasRdnValue e dn = false := by
  simp only [frob_rdn, hasRdnValue, rdnAttrValues]
  cases h : rdnOf dn with
  | none => simp
  | some av =>
    simp only [frob_ava]
    cases hf : e.attrs.find? fun p => adEq p.1 av.1 with
    | none => simp
    | some p =>
      by_cases hv : av.2 ∈ p.2 <;> simp [hv]

/-- `frob_rdn` in CHECK_NONE mode, on a DN whose RDN parses, succeeds
exactly when the entry lacks the RDN value. -/
theorem frob_checkNone_eq (e : tentry) (dn : Bytes) (av : Bytes × Bytes)
    (h : rdnOf dn = some av) :
    ((frob_rdn e dn .checkNone).1 = 0) ↔ hasRdnValue e dn = false := by
  simp only [frob_rdn, hasRdnValue, h]
  simp only [frob_ava]
  cases hf : e.attrs.find? fun p => adEq p.1 av.1 with
  | none => simp
  | some p =>
    by_cases hv : av.2 ∈ p.2 <;> simp [hv]

/-- A true `hasRdnValue` needs a parseable RDN. -/
theorem hasRdnValue_some (e : tentry) (dn : Bytes)
    (h : hasRdnValue e dn = true) : ∃ av, rdnOf dn = some av := by
  unfold hasRdnValue at h
  cases hr : rdnOf dn with
  | none => rw [hr] at h; exact absurd h (by simp)
  | some av => exact ⟨av, rfl⟩

/-- C4: `validate_rename(C, D)` fails exactly when C's DN is empty, or
D's DN is empty, or C does not contain its own RDN value among the
values of its RDN attribute; otherwise it succeeds with
`deleteoldrdn = 0` when D still contains C's RDN value in the same
attribute and `deleteoldrdn = 1` when it does not. -/
theorem validate_rename_spec (C D : tentry) :
    validate_rename C D =
      if C.dn = [] ∨ D.dn = [] ∨ hasRdnValue C C.dn = false then none
      else some (if hasRdnValue D C.dn = true then 0 else 1) := by
  simp only [validate_rename]
  by_cases h1 : C.dn = [] ∨ D.dn = []
  · rw [if_pos h1, if_pos (by tauto)]
  · rw [if_neg h1]
    by_cases h2 : hasRdnValue C C.dn = false
    · rw [if_pos ((frob_check_eq C C.dn).mpr h2), if_pos (by tauto)]
    · have h2t : hasRdnValue C C.dn = true := by
        revert h2
        cases hasRdnValue C C.dn <;> simp
      obtain ⟨av, hav⟩ := hasRdnValue_some C C.dn h2t
      have hcheck : ¬ (frob_rdn C C.dn .check).1 = -1 :=
        fun hc => h2 ((frob_check_eq C C.dn).mp hc)
      have hrhs : ¬ (C.dn = [] ∨ D.dn = [] ∨ hasRdnValue C C.dn = false) := by
        tauto
      by_cases h3 : hasRdnValue D C.dn = false
      · have hnone : (frob_rdn D C.dn .checkNone).1 = 0 :=
          (frob_checkNone_eq D C.dn av hav).mpr h3
        rw [if_neg hcheck, if_pos hnone, if_neg hrhs, if_neg (by simp [h3])]
      · have hnone : ¬ (frob_rdn D C.dn .checkNone).1 = 0 :=
          fun hc => h3 ((frob_checkNone_eq D C.dn av hav).mp hc)
        have h3t : hasRdnValue D C.dn = true := by
          revert h3
          cases hasRdnValue D C.dn <;> simp
        rw [if_neg hcheck, if_neg hnone, if_neg hrhs, if_pos h3t]

end RenameValidationTheorems

section DiffInvariants

/-- Every slot of `cur` holds either its original value from `base` or
the mark of that value. -/
def MarkedFrom (base cur : List Int) : Prop :=
  cur.length = base.length ∧
  ∀ j, j < base.length →
    cur.getD j 0 = base.getD j 0 ∨ cur.getD j 0 = invertOffset (base.getD j 0)

theorem getD_set_self_lt (a : List Int) (i : Nat) (x : Int)
    (h : i < a.length) : (a.set i x).getD i 0 = x := by
  have h2 : i < (a.set i x).length := by simpa using h
  rw [List.getD_eq_getElem _ _ h2]
  simp

theorem getD_set_ne (a : List Int) (i j : Nat) (x : Int) (h : ¬ j = i) :
    (a.set i x).getD j 0 = a.getD j 0 := by
  by_cases hj : j < a.length
  · have h2 : j < (a.set i x).length := by simpa using hj
    rw [List.getD_eq_getElem _ _ h2, List.getD_eq_getElem _ _ hj,
      List.getElem_set]
    rw [if_neg (fun hh => h hh.symm)]
  · rw [List.getD_eq_default _ _ (by rw [List.length_set]; omega),
      List.getD_eq_default _ _ (by omega)]

theorem markedFrom_rfl (base : List Int) : MarkedFrom base base :=
  ⟨rfl, fun _ _ => Or.inl rfl⟩

theorem markedFrom_invert (base cur : List Int) (n : Nat)
    (hm : MarkedFrom base cur) : MarkedFrom base (long_array_invert cur n) := by
  obtain ⟨hlen, hj⟩ := hm
  refine ⟨by simpa [long_array_invert] using hlen, fun j hjl => ?_⟩
  by_cases hjn : j = n
  · subst hjn
    by_cases hlt : j < cur.length
    · rw [long_array_invert, getD_set_self_lt _ _ _ hlt]
      rcases hj j hjl with h | h
      · exact Or.inr (by rw [h])
      · refine Or.inl ?_
        rw [h]
        simp only [invertOffset]
        ring
    · rw [long_array_invert, List.set_eq_of_length_le (by omega)]
      exact hj j hjl
  · rw [long_array_invert, getD_set_ne _ _ _ _ hjn]
    exact hj j hjl

theorem getD_map_restore (cur : List Int) (j : Nat) :
    (restoreOffsets cur).getD j 0 =
      if cur.getD j 0 < 0 then invertOffset (cur.getD j 0) else cur.getD j 0 := by
  by_cases hj : j < cur.length
  · have h2 : j < (restoreOffsets cur).length := by
      simpa [restoreOffsets] using hj
    rw [List.getD_eq_getElem _ _ h2, List.getD_eq_getElem _ _ hj]
    simp [restoreOffsets]
  · rw [List.getD_eq_default _ _ (by simpa [restoreOffsets] using hj),
      List.getD_eq_default _ _ (by omega)]
    norm_num

/-- Lists are equal when they have the same length and agree on `getD`
at every index below it. -/
theorem list_ext_getD (a b : List Int) (hlen : a.length = b.length)
    (h : ∀ j, j < b.length → a.getD j 0 = b.getD j 0) : a = b := by
  apply List.ext_getElem hlen
  intro j h1 h2
  have := h j h2
  rwa [List.getD_eq_getElem _ _ h1, List.getD_eq_getElem _ _ h2] at this

/-- Restoration undoes any combination of markings when the original
array holds only non-negative file offsets. -/
theorem restore_of_marked (base cur : List Int)
    (hnn : ∀ o ∈ base, 0 ≤ o) (hm : MarkedFrom base cur) :
    restoreOffsets cur = base := by
  obtain ⟨hlen, hj⟩ := hm
  apply list_ext_getD
  · simpa [restoreOffsets] using hlen
  intro j hjl
  rw [getD_map_restore]
  have hb : 0 ≤ base.getD j 0 := by
    rw [List.getD_eq_getElem _ _ hjl]
    exact hnn _ (List.getElem_mem hjl)
  rcases hj j hjl with h | h
  · rw [h, if_neg (by omega)]
  · rw [h]
    simp only [invertOffset]
    rw [if_pos (by omega)]
    ring

end DiffInvariants

section DiffStepShape

/-- All handler responses along a call list are non-negative. -/
def callsOkGo (h : thandler) (past : List HCall) : List HCall → Bool
  | [] => true
  | c :: rest => decide (0 ≤ h past c) && callsOkGo h (past ++ [c]) rest

/-- No handler invocation of the run returned a negative code. -/
def callsOk (h : thandler) (calls : List HCall) : Bool := callsOkGo h [] calls

theorem callsOkGo_append (h : thandler) (l : List HCall) :
    ∀ (past : List HCall) (c : HCall),
      callsOkGo h past (l ++ [c]) =
        (callsOkGo h past l && decide (0 ≤ h (past ++ l) c)) := by
  induction l with
  | nil =>
    intro past c
    simp [callsOkGo]
  | cons x xs ih =>
    intro past c
    simp only [List.cons_append, callsOkGo]
    rw [show xs.append [c] = xs ++ [c] from rfl, ih]
    simp only [List.append_assoc, List.singleton_append, Bool.and_assoc]

theorem callsOk_append (h : thandler) (calls : List HCall) (c : HCall) :
    callsOk h (calls ++ [c]) =
      (callsOk h calls && decide (0 ≤ h calls c)) := by
  simpa [callsOk] using callsOkGo_append h calls [] c

/-- The main-loop step either leaves the offsets array alone or marks
one slot. -/
theorem diffStep_offs (p : tparser) (h : thandler) (clean data : Bytes)
    (offs : List Int) (calls : List HCall) (r : RecInfo) :
    (diffStep p h clean data offs calls r).1 = offs ∨
    ∃ n, (diffStep p h clean data offs calls r).1 = long_array_invert offs n := by
  unfold diffStep
  repeat' split
  all_goals first
    | exact Or.inl rfl
    | exact Or.inr ⟨_, rfl⟩

/-- The main-loop step either makes no handler call and never reports
`HandlerAborted`, or makes exactly one call and reports
`HandlerAborted` exactly when that call returns a negative code. -/
theorem diffStep_calls (p : tparser) (h : thandler) (clean data : Bytes)
    (offs : List Int) (calls : List HCall) (r : RecInfo) :
    ((diffStep p h clean data offs calls r).2.1 = calls ∧
      ¬ (diffStep p h clean data offs calls r).2.2 = some rcHandlerAborted) ∨
    ∃ c, (diffStep p h clean data offs calls r).2.1 = calls ++ [c] ∧
      (diffStep p h clean data offs calls r).2.2 =
        (if h calls c < 0 then some rcHandlerAborted else none) := by
  unfold diffStep
  repeat' split
  all_goals first
    | exact Or.inl ⟨rfl, by simp [rcSyntax, rcHandlerAborted]⟩
    | exact Or.inr ⟨_, rfl, rfl⟩
    | (refine Or.inr ⟨_, rfl, ?_⟩
       first
         | rw [if_pos (by omega)]
         | rw [if_neg (by omega)])

end DiffStepShape

section LoopUnfold

theorem diffLoop_zero (p : tparser) (h : thandler) (clean data : Bytes)
    (pos : Nat) (offs : List Int) (calls : List HCall) :
    diffLoop p h clean data 0 pos offs calls = (rcSyntax, offs, calls) := rfl

theorem diffLoop_succ_err (p : tparser) (h : thandler) (clean data : Bytes)
    (fuel pos : Nat) (offs : List Int) (calls : List HCall) (e : PErr)
    (hs : p.scan data pos = .error e) :
    diffLoop p h clean data (fuel + 1) pos offs calls =
      (rcSyntax, offs, calls) := by
  unfold diffLoop
  rw [hs]

theorem diffLoop_succ_eos (p : tparser) (h : thandler) (clean data : Bytes)
    (fuel pos : Nat) (offs : List Int) (calls : List HCall)
    (hs : p.scan data pos = .ok none) :
    diffLoop p h clean data (fuel + 1) pos offs calls =
      ((diffSweepGo p h clean offs 0 calls).1, offs,
       (diffSweepGo p h clean offs 0 calls).2) := by
  unfold diffLoop
  rw [hs]

theorem diffLoop_succ_term (p : tparser) (h : thandler) (clean data : Bytes)
    (fuel pos : Nat) (offs : List Int) (calls : List HCall) (r : RecInfo)
    (offs2 : List Int) (calls2 : List HCall) (rc : Int)
    (hs : p.scan data pos = .ok (some r))
    (hstep : diffStep p h clean data offs calls r = (offs2, calls2, some rc)) :
    diffLoop p h clean data (fuel + 1) pos offs calls = (rc, offs2, calls2) := by
  unfold diffLoop
  rw [hs]
  dsimp only
  rw [hstep]

theorem diffLoop_succ_cont (p : tparser) (h : thandler) (clean data : Bytes)
    (fuel pos : Nat) (offs : List Int) (calls : List HCall) (r : RecInfo)
    (offs2 : List Int) (calls2 : List HCall)
    (hs : p.scan data pos = .ok (some r))
    (hstep : diffStep p h clean data offs calls r = (offs2, calls2, none)) :
    diffLoop p h clean data (fuel + 1) pos offs calls =
      diffLoop p h clean data fuel r.endPos offs2 calls2 := by
  conv_lhs => unfold diffLoop
  rw [hs]
  dsimp only
  rw [hstep]

theorem diffSweepGo_cons_skip (p : tparser) (h : thandler) (clean : Bytes)
    (o : Int) (rest : List Int) (i : Nat) (calls : List HCall)
    (ho : o < 0) :
    diffSweepGo p h clean (o :: rest) i calls =
      diffSweepGo p h clean rest (i + 1) calls := by
  conv_lhs => unfold diffSweepGo
  rw [if_pos ho]

theorem diffSweepGo_cons_read (p : tparser) (h : thandler) (clean : Bytes)
    (o : Int) (rest : List Int) (i : Nat) (calls : List HCall)
    (pe : RecInfo × tentry) (ho : ¬ o < 0)
    (hr : p.read clean o.toNat = .ok (some pe)) :
    diffSweepGo p h clean (o :: rest) i calls =
      (if h calls (HCall.hdelete i pe.2.dn) < 0 then
        (rcHandlerAborted, calls ++ [HCall.hdelete i pe.2.dn])
      else diffSweepGo p h clean rest (i + 1)
        (calls ++ [HCall.hdelete i pe.2.dn])) := by
  conv_lhs => unfold diffSweepGo
  rw [if_neg ho, hr]

theorem diffSweepGo_cons_err (p : tparser) (h : thandler) (clean : Bytes)
    (o : Int) (rest : List Int) (i : Nat) (calls : List HCall) (e : PErr)
    (ho : ¬ o < 0) (hr : p.read clean o.toNat = .error e) :
    diffSweepGo p h clean (o :: rest) i calls = (rcSyntax, calls) := by
  unfold diffSweepGo
  rw [if_neg ho, hr]

theorem diffSweepGo_cons_none (p : tparser) (h : thandler) (clean : Bytes)
    (o : Int) (rest : List Int) (i : Nat) (calls : List HCall)
    (ho : ¬ o < 0) (hr : p.read clean o.toNat = .ok none) :
    diffSweepGo p h clean (o :: rest) i calls = (rcSyntax, calls) := by
  unfold diffSweepGo
  rw [if_neg ho, hr]

end LoopUnfold

section OffsetRestoration

theorem diffLoop_marked (p : tparser) (h : thandler) (clean data : Bytes)
    (base : List Int) :
    ∀ (fuel pos : Nat) (offs : List Int) (calls : List HCall),
      MarkedFrom base offs →
      MarkedFrom base (diffLoop p h clean data fuel pos offs calls).2.1 := by
  intro fuel
  induction fuel with
  | zero => intro pos offs calls hm; exact hm
  | succ fuel ih =>
    intro pos offs calls hm
    cases hs : p.scan data pos with
    | error e =>
      rw [diffLoop_succ_err p h clean data fuel pos offs calls e hs]
      exact hm
    | ok o =>
      cases o with
      | none =>
        rw [diffLoop_succ_eos p h clean data fuel pos offs calls hs]
        exact hm
      | some r =>
        have hshape := diffStep_offs p h clean data offs calls r
        rcases hstep : diffStep p h clean data offs calls r with ⟨offs2, calls2, out⟩
        rw [hstep] at hshape
        have hm2 : MarkedFrom base offs2 := by
          rcases hshape with h1 | ⟨n, h1⟩
          · have h2 : offs2 = offs := h1
            rw [h2]
            exact hm
          · have h2 : offs2 = long_array_invert offs n := h1
            rw [h2]
            exact markedFrom_invert base offs n hm
        cases out with
        | some rc =>
          rw [diffLoop_succ_term p h clean data fuel pos offs calls r offs2
            calls2 rc hs hstep]
          exact hm2
        | none =>
          rw [diffLoop_succ_cont p h clean data fuel pos offs calls r offs2
            calls2 hs hstep]
          exact ih r.endPos offs2 calls2 hm2

/-- `compare_streams` hands back the offsets array bytewise equal to
its entry value on every return path, provided the array holds file
offsets (non-negative values). -/
theorem compare_streams_restores (p : tparser) (h : thandler)
    (offsets : List Int) (clean data : Bytes)
    (hnn : ∀ o ∈ offsets, 0 ≤ o) :
    (compare_streams p h offsets clean data).offsets = offsets := by
  unfold compare_streams
  exact restore_of_marked offsets _ hnn
    (diffLoop_marked p h clean data offsets (diffFuel data) 0 offsets []
      (markedFrom_rfl offsets))

/-- C2: on every return path of `compare_streams` (success, syntactic
error, or handler failure), the Offsets array is bytewise equal on
return to its contents on entry, although slots are marked during the
run.  The entry contents are file offsets, hence non-negative. -/
theorem compare_streams_offsets_restored (p : tparser) (h : thandler)
    (offsets : List Int) (clean data : Bytes)
    (hnn : ∀ o ∈ offsets, 0 ≤ o) :
    (compare_streams p h offsets clean data).offsets = offsets :=
  compare_streams_restores p h offsets clean data hnn

/-- A handler that always succeeds. -/
def okHandler : thandler := fun _ _ => 0

/-- A handler that fails on its first invocation, as the failure-mode
tests configure their mock. -/
def failFirstHandler : thandler :=
  fun past _ => if past.length = 0 then -1 else 0

def cleanUnchanged : Bytes :=
  str "\ndn: cn=foo,dc=example,dc=com\nldapvi-key: 0\ncn: foo\n\n"

def cleanSnOld : Bytes :=
  str "\ndn: cn=foo,dc=example,dc=com\nldapvi-key: 0\ncn: foo\nsn: old\n\n"

def dataSnNew : Bytes :=
  str "\ndn: cn=foo,dc=example,dc=com\nldapvi-key: 0\ncn: foo\nsn: new\n\n"

/-- Witness for C2 at the offsets-restoration scenario of the test
suite: one record with key 0 at offset 1, compared against a data file
with a changed `sn` value, under a failing handler. -/
theorem compare_streams_offsets_restored_witness :
    (∀ o ∈ ([1] : List Int), 0 ≤ o) ∧
    (compare_streams ldif_dialect failFirstHandler [1] cleanSnOld
      dataSnNew).offsets = [1] :=
  ⟨by decide,
   compare_streams_offsets_restored ldif_dialect failFirstHandler [1]
     cleanSnOld dataSnNew (by decide)⟩

end OffsetRestoration

section HandlerAbort

theorem diffSweepGo_callsOk (p : tparser) (h : thandler) (clean : Bytes) :
    ∀ (l : List Int) (i : Nat) (calls : List HCall),
      callsOk h calls = true →
      ¬ (diffSweepGo p h clean l i calls).1 = rcHandlerAborted →
      callsOk h (diffSweepGo p h clean l i calls).2 = true := by
  intro l
  induction l with
  | nil =>
    intro i calls hok _
    exact hok
  | cons o rest ih =>
    intro i calls hok hne
    by_cases ho : o < 0
    · rw [diffSweepGo_cons_skip p h clean o rest i calls ho] at hne ⊢
      exact ih (i + 1) calls hok hne
    · cases hr : p.read clean o.toNat with
      | error e =>
        rw [diffSweepGo_cons_err p h clean o rest i calls e ho hr]
        exact hok
      | ok oo =>
        cases oo with
        | none =>
          rw [diffSweepGo_cons_none p h clean o rest i calls ho hr]
          exact hok
        | some pe =>
          rw [diffSweepGo_cons_read p h clean o rest i calls pe ho hr] at hne ⊢
          by_cases hh : h calls (HCall.hdelete i pe.2.dn) < 0
          · rw [if_pos hh] at hne
            exact absurd rfl hne
          · rw [if_neg hh] at hne ⊢
            have hle : 0 ≤ h calls (HCall.hdelete i pe.2.dn) := by omega
            refine ih (i + 1) _ ?_ hne
            rw [callsOk_append]
            simp [hok, hle]

theorem diffLoop_callsOk (p : tparser) (h : thandler) (clean data : Bytes) :
    ∀ (fuel pos : Nat) (offs : List Int) (calls : List HCall),
      callsOk h calls = true →
      ¬ (diffLoop p h clean data fuel pos offs calls).1 = rcHandlerAborted →
      callsOk h (diffLoop p h clean data fuel pos offs calls).2.2 = true := by
  intro fuel
  induction fuel with
  | zero => intro pos offs calls hok _; exact hok
  | succ fuel ih =>
    intro pos offs calls hok hne
    cases hs : p.scan data pos with
    | error e =>
      rw [diffLoop_succ_err p h clean data fuel pos offs calls e hs]
      exact hok
    | ok o =>
      cases o with
      | none =>
        rw [diffLoop_succ_eos p h clean data fuel pos offs calls hs] at hne ⊢
        exact diffSweepGo_callsOk p h clean offs 0 calls hok hne
      | some r =>
        have hshape := diffStep_calls p h clean data offs calls r
        rcases hstep : diffStep p h clean data offs calls r with ⟨offs2, calls2, out⟩
        rw [hstep] at hshape
        cases out with
        | some rc =>
          rw [diffLoop_succ_term p h clean data fuel pos offs calls r offs2
            calls2 rc hs hstep] at hne ⊢
          have hne2 : ¬ rc = rcHandlerAborted := hne
          show callsOk h calls2 = true
          rcases hshape with ⟨hc, hrc⟩ | ⟨c, hc, hrc⟩
          · have hc2 : calls2 = calls := hc
            rw [hc2]
            exact hok
          · have hrc2 : (some rc : Option Int) =
              (if h calls c < 0 then some rcHandlerAborted else none) := hrc
            by_cases hh : h calls c < 0
            · rw [if_pos hh] at hrc2
              exact absurd (Option.some.inj hrc2) hne2
            · rw [if_neg hh] at hrc2
              exact absurd hrc2 (by simp)
        | none =>
          rw [diffLoop_succ_cont p h clean data fuel pos offs calls r offs2
            calls2 hs hstep] at hne ⊢
          refine ih r.endPos offs2 calls2 ?_ hne
          rcases hshape with ⟨hc, _⟩ | ⟨c, hc, hrc⟩
          · have hc2 : calls2 = calls := hc
            rw [hc2]
            exact hok
          · have hc2 : calls2 = calls ++ [c] := hc
            have hrc2 : (none : Option Int) =
              (if h calls c < 0 then some rcHandlerAborted else none) := hrc
            by_cases hh : h calls c < 0
            · rw [if_pos hh] at hrc2
              exact absurd hrc2 (by simp)
            · have hle : 0 ≤ h calls c := by omega
              rw [hc2, callsOk_append]
              simp [hok, hle]

/-- C9: whenever any handler callback invoked by `compare_streams`
returns a negative code, the run stops with the distinct
`HandlerAborted` code, the offsets array is restored, and that code
differs from the code used for syntactic errors in the data file and
from success. -/
theorem compare_streams_handler_abort (p : tparser) (h : thandler)
    (offsets : List Int) (clean data : Bytes)
    (hnn : ∀ o ∈ offsets, 0 ≤ o)
    (hbad : ¬ callsOk h (compare_streams p h offsets clean data).calls = true) :
    (compare_streams p h offsets clean data).rc = rcHandlerAborted ∧
    (compare_streams p h offsets clean data).offsets = offsets ∧
    ¬ rcHandlerAborted = rcSyntax ∧ ¬ rcHandlerAborted = rcOk := by
  refine ⟨?_, compare_streams_restores p h offsets clean data hnn,
    by decide, by decide⟩
  by_contra hrc
  exact hbad (diffLoop_callsOk p h clean data (diffFuel data) 0 offsets []
    rfl (by simpa [compare_streams] using hrc))

/-- Witness for C9 at the failing-change-handler scenario of the test
suite. -/
theorem compare_streams_handler_abort_witness :
    ((∀ o ∈ ([1] : List Int), 0 ≤ o) ∧
     ¬ callsOk failFirstHandler
       (compare_streams ldif_dialect failFirstHandler [1] cleanSnOld
         dataSnNew).calls = true) ∧
    (compare_streams ldif_dialect failFirstHandler [1] cleanSnOld
      dataSnNew).rc = rcHandlerAborted :=
  ⟨⟨by decide, by decide⟩,
   (compare_streams_handler_abort ldif_dialect failFirstHandler [1]
     cleanSnOld dataSnNew (by decide) (by decide)).1⟩

end HandlerAbort

section NoChange

theorem recordsFrom_nil_inv (p : tparser) (s : Bytes) (fuel pos : Nat)
    (h : recordsFrom p s fuel pos = some []) :
    p.scan s pos = .ok none := by
  cases fuel with
  | zero => exact absurd h (by simp [recordsFrom])
  | succ fuel =>
    unfold recordsFrom at h
    cases hs : p.scan s pos with
    | error e => rw [hs] at h; exact absurd h (by simp)
    | ok o =>
      cases o with
      | none => rfl
      | some r =>
        rw [hs] at h
        simp only [Option.map_eq_some'] at h
        obtain ⟨l, _, hl⟩ := h
        exact absurd hl (by simp)

theorem recordsFrom_cons_inv (p : tparser) (s : Bytes) (fuel pos : Nat)
    (r : RecInfo) (rest : List RecInfo)
    (h : recordsFrom p s fuel pos = some (r :: rest)) :
    ∃ fuel2, fuel = fuel2 + 1 ∧ p.scan s pos = .ok (some r) ∧
      recordsFrom p s fuel2 r.endPos = some rest := by
  cases fuel with
  | zero => exact absurd h (by simp [recordsFrom])
  | succ fuel =>
    unfold recordsFrom at h
    cases hs : p.scan s pos with
    | error e => rw [hs] at h; exact absurd h (by simp)
    | ok o =>
      cases o with
      | none => rw [hs] at h; exact absurd h (by simp)
      | some r2 =>
        rw [hs] at h
        simp only [Option.map_eq_some'] at h
        obtain ⟨l, hl, hcons⟩ := h
        obtain ⟨hr, hrest⟩ := List.cons.inj hcons
        subst hr
        subst hrest
        exact ⟨fuel, rfl, rfl, hl⟩

/-- The fast path of one main-loop step: when the clean bytes at the
record's offset equal the data bytes at its position, the step marks
the slot and makes no handler call. -/
theorem diffStep_fast (p : tparser) (h : thandler) (clean data : Bytes)
    (offs : List Int) (calls : List HCall) (r rc2 : RecInfo) (n : Nat)
    (hk : numericKey r.key = some n) (hn : n < offs.length)
    (ho : ¬ offs.getD n 0 < 0)
    (hscan2 : p.scan clean (offs.getD n 0).toNat = .ok (some rc2))
    (heq : extractRange clean (offs.getD n 0).toNat
        (rc2.endPos - (offs.getD n 0).toNat) =
      extractRange data r.pos (rc2.endPos - (offs.getD n 0).toNat)) :
    diffStep p h clean data offs calls r =
      (long_array_invert offs n, calls, none) := by
  unfold diffStep
  rw [hk]
  dsimp only
  rw [if_pos hn, if_neg ho, hscan2]
  dsimp only
  rw [if_pos heq]

theorem diffSweepGo_all_marked (p : tparser) (h : thandler) (clean : Bytes) :
    ∀ (l : List Int) (i : Nat) (calls : List HCall),
      (∀ o ∈ l, o < 0) →
      diffSweepGo p h clean l i calls = (rcOk, calls) := by
  intro l
  induction l with
  | nil => intro i calls _; rfl
  | cons o rest ih =>
    intro i calls hl
    rw [diffSweepGo_cons_skip p h clean o rest i calls (hl o (by simp))]
    exact ih (i + 1) calls fun o2 ho2 => hl o2 (by simp [ho2])

/-- Main-loop induction for byte-identical streams: every remaining
record takes the fast path, marking its slot without a handler call. -/
theorem diffLoop_identical (p : tparser) (h : thandler) (s : Bytes)
    (offsets : List Int) (rs : List RecInfo)
    (hscan : ∀ r ∈ rs, p.scan s r.pos = .ok (some r))
    (hkeys : ∀ r ∈ rs, ∃ k, numericKey r.key = some k ∧ k < offsets.length ∧
      offsets.getD k 0 = (r.pos : Int))
    (hinj : rs.Pairwise fun r1 r2 => numericKey r1.key ≠ numericKey r2.key)
    (hsurj : ∀ j, j < offsets.length → ∃ r ∈ rs, numericKey r.key = some j) :
    ∀ (rs2 : List RecInfo) (fuel pos : Nat) (offs : List Int)
      (rsd : List RecInfo),
      rs = rsd ++ rs2 →
      recordsFrom p s fuel pos = some rs2 →
      offs.length = offsets.length →
      (∀ j, j < offsets.length →
        offs.getD j 0 =
          (if rsd.any (fun r2 => numericKey r2.key == some j) then
            invertOffset (offsets.getD j 0)
          else offsets.getD j 0)) →
      (diffLoop p h s s fuel pos offs []).1 = rcOk ∧
      (diffLoop p h s s fuel pos offs []).2.2 = [] := by
  intro rs2
  induction rs2 with
  | nil =>
    intro fuel pos offs rsd hsplit hrecs hlen hoffs
    have hs : p.scan s pos = .ok none := recordsFrom_nil_inv p s fuel pos hrecs
    have hrsd : rsd = rs := by rw [hsplit, List.append_nil]
    have hmarked : ∀ o ∈ offs, o < 0 := by
      intro o hmem
      obtain ⟨j, hj, hget⟩ := List.mem_iff_getElem.mp hmem
      have hjlen : j < offsets.length := by omega
      have hval := hoffs j hjlen
      rw [List.getD_eq_getElem _ _ hj, hget] at hval
      obtain ⟨r2, hr2mem, hr2key⟩ := hsurj j hjlen
      have hany : rsd.any (fun r3 => numericKey r3.key == some j) = true := by
        rw [hrsd]
        exact List.any_eq_true.mpr ⟨r2, hr2mem, by simp [hr2key]⟩
      rw [if_pos hany] at hval
      obtain ⟨k, hk, _, hoff⟩ := hkeys r2 hr2mem
      have hkj : k = j := by
        rw [hk] at hr2key
        exact (Option.some.inj hr2key).symm ▸ rfl
      subst hkj
      rw [hoff] at hval
      rw [hval]
      simp only [invertOffset]
      omega
    cases fuel with
    | zero => exact absurd hrecs (by simp [recordsFrom])
    | succ fuel =>
      rw [diffLoop_succ_eos p h s s fuel pos offs [] hs,
        diffSweepGo_all_marked p h s offs 0 [] hmarked]
      exact ⟨rfl, rfl⟩
  | cons r rest ih =>
    intro fuel pos offs rsd hsplit hrecs hlen hoffs
    obtain ⟨fuel2, hfuel, hs, hrest⟩ :=
      recordsFrom_cons_inv p s fuel pos r rest hrecs
    subst hfuel
    have hrmem : r ∈ rs := by
      rw [hsplit]
      exact List.mem_append_right rsd (by simp)
    obtain ⟨k, hk, hklen, hkoff⟩ := hkeys r hrmem
    have hnotdone : rsd.any (fun r2 => numericKey r2.key == some k) = false := by
      rw [List.any_eq_false]
      intro r2 hr2
      have hpair := (List.pairwise_append.mp (hsplit ▸ hinj)).2.2
      have := hpair r2 hr2 r (by simp)
      simp only [beq_iff_eq]
      intro hcon
      exact this (by rw [hcon, hk])
    have hoffk : offs.getD k 0 = (r.pos : Int) := by
      rw [hoffs k hklen, if_neg (by rw [hnotdone]; simp), hkoff]
    have hnonneg : ¬ offs.getD k 0 < 0 := by
      rw [hoffk]
      omega
    have htoNat : (offs.getD k 0).toNat = r.pos := by
      rw [hoffk]
      exact Int.toNat_natCast r.pos
    have hscank : p.scan s (offs.getD k 0).toNat = .ok (some r) := by
      rw [htoNat]
      exact hscan r hrmem
    have hklen2 : k < offs.length := by omega
    have hstep := diffStep_fast p h s s offs [] r r k hk hklen2 hnonneg
      hscank (by rw [htoNat])
    rw [diffLoop_succ_cont p h s s fuel2 pos offs [] r
      (long_array_invert offs k) [] hs hstep]
    refine ih fuel2 r.endPos (long_array_invert offs k) (rsd ++ [r])
      (by rw [hsplit, List.append_assoc, List.singleton_append]) hrest
      (by simpa [long_array_invert] using hlen) ?_
    intro j hjlen
    have hjoffs : j < offs.length := by omega
    by_cases hjk : j = k
    · subst hjk
      rw [long_array_invert, getD_set_self_lt offs j _ hjoffs, hoffk,
        ← hkoff]
      rw [if_pos (by simp [List.any_append, hk])]
    · rw [long_array_invert, getD_set_ne offs k j _ hjk, hoffs j hjlen]
      have hsame : ((rsd ++ [r]).any fun r2 => numericKey r2.key == some j) =
          (rsd.any fun r2 => numericKey r2.key == some j) := by
        simp only [List.any_append, List.any_cons, List.any_nil,
          Bool.or_false]
        have : (numericKey r.key == some j) = false := by
          simp only [beq_eq_false_iff_ne, ne_eq, hk]
          intro hcon
          exact hjk (Option.some.inj hcon).symm
        rw [this, Bool.or_false]
      rw [hsame]

/-- C1: when the clean and data streams are byte-identical and every
record of the stream carries a distinct numeric key whose slot in
Offsets holds that record's byte position (and every slot is some
record's key), `compare_streams` succeeds and invokes no handler
method at all. -/
theorem compare_streams_identical (p : tparser) (h : thandler)
    (offsets : List Int) (s : Bytes) (rs : List RecInfo)
    (hrecs : records p s = some rs)
    (hscan : ∀ r ∈ rs, p.scan s r.pos = .ok (some r))
    (hkeys : ∀ r ∈ rs, ∃ k, numericKey r.key = some k ∧ k < offsets.length ∧
      offsets.getD k 0 = (r.pos : Int))
    (hinj : rs.Pairwise fun r1 r2 => numericKey r1.key ≠ numericKey r2.key)
    (hsurj : ∀ j, j < offsets.length → ∃ r ∈ rs, numericKey r.key = some j) :
    (compare_streams p h offsets s s).rc = rcOk ∧
    (compare_streams p h offsets s s).calls = [] := by
  have hloop := diffLoop_identical p h s offsets rs hscan hkeys hinj hsurj
    rs (diffFuel s) 0 offsets [] rfl hrecs rfl
    (fun j hj => by simp)
  exact ⟨hloop.1, hloop.2⟩

/-- Witness for C1 at the no-op scenario of the test suite: one LDIF
record with key 0 at byte offset 1, identical clean and data
streams. -/
theorem compare_streams_identical_witness :
    (records ldif_dialect cleanUnchanged =
      some [⟨str "0", 1, 53⟩]) ∧
    (compare_streams ldif_dialect okHandler [1] cleanUnchanged
      cleanUnchanged).rc = rcOk ∧
    (compare_streams ldif_dialect okHandler [1] cleanUnchanged
      cleanUnchanged).calls = [] :=
  ⟨by decide,
   compare_streams_identical ldif_dialect okHandler [1] cleanUnchanged
     [⟨str "0", 1, 53⟩] (by decide) (by decide) (by decide) (by decide)
     (by decide)⟩

end NoChange

section Deletions

/-- The numeric key and DN of a handler call when it is a keyed
deletion; immediate deletions carry key -1 and are not keyed. -/
def deleteKeyed : HCall → Option (Int × Bytes)
  | .hdelete n dn => if 0 ≤ n then some (n, dn) else none
  | _ => none

/-- DN of the clean record whose offset sits in slot `j`. -/
def cleanDnAt (p : tparser) (clean : Bytes) (offsets : List Int)
    (j : Nat) : Bytes :=
  match p.read clean ((offsets.getD j 0).toNat) with
  | .ok (some pe) => pe.2.dn
  | _ => []

/-- Whether the data records reference numeric key `j`. -/
def referencesKey (rs : List RecInfo) (j : Nat) : Bool :=
  rs.any fun r => numericKey r.key == some j

/-- The keyed deletions the end-of-stream sweep must report: one per
unreferenced slot, in ascending slot order, with the clean record's
DN. -/
def sweepDeletes (p : tparser) (clean : Bytes) (offsets : List Int)
    (rs : List RecInfo) : List (Int × Bytes) :=
  ((List.range offsets.length).filter fun j => ! referencesKey rs j).map
    fun j => (Int.ofNat j, cleanDnAt p clean offsets j)

/-- No main-loop step emits a keyed deletion: numeric-key records emit
changes or renames, immediate delete records carry key -1. -/
theorem diffStep_deleteFree (p : tparser) (h : thandler) (clean data : Bytes)
    (offs : List Int) (calls : List HCall) (r : RecInfo) :
    ((diffStep p h clean data offs calls r).2.1).filterMap deleteKeyed =
      calls.filterMap deleteKeyed := by
  unfold diffStep
  repeat' split
  all_goals simp [deleteKeyed, List.filterMap_append]

/-- A continuing main-loop step marks exactly the slot of its numeric
key (which was in range and unmarked), or leaves the offsets array
alone for an immediate record. -/
theorem diffStep_cont_mark (p : tparser) (h : thandler) (clean data : Bytes)
    (offs : List Int) (calls : List HCall) (r : RecInfo)
    (offs2 : List Int) (calls2 : List HCall)
    (hstep : diffStep p h clean data offs calls r = (offs2, calls2, none)) :
    (∃ n, numericKey r.key = some n ∧ n < offs.length ∧
      ¬ offs.getD n 0 < 0 ∧ offs2 = long_array_invert offs n) ∨
    (numericKey r.key = none ∧ offs2 = offs) := by
  cases hk : numericKey r.key with
  | some n =>
    left
    unfold diffStep at hstep
    rw [hk] at hstep
    dsimp only at hstep
    by_cases h1 : n < offs.length
    · rw [if_pos h1] at hstep
      by_cases h2 : offs.getD n 0 < 0
      · rw [if_pos h2] at hstep
        simp only [Prod.mk.injEq] at hstep
        exact absurd hstep.2.2 (by simp)
      · rw [if_neg h2] at hstep
        refine ⟨n, rfl, h1, h2, ?_⟩
        repeat' split at hstep
        all_goals simp only [Prod.mk.injEq] at hstep
        all_goals first
          | exact hstep.1.symm
          | simp at hstep
    · rw [if_neg h1] at hstep
      simp only [Prod.mk.injEq] at hstep
      exact absurd hstep.2.2 (by simp)
  | none =>
    right
    refine ⟨rfl, ?_⟩
    unfold diffStep at hstep
    rw [hk] at hstep
    dsimp only at hstep
    repeat' split at hstep
    all_goals simp only [Prod.mk.injEq] at hstep
    all_goals exact hstep.1.symm

/-- A terminating main-loop step reports a syntactic error or a
handler abort, never success. -/
theorem diffStep_term_codes (p : tparser) (h : thandler) (clean data : Bytes)
    (offs : List Int) (calls : List HCall) (r : RecInfo)
    (offs2 : List Int) (calls2 : List HCall) (rc : Int)
    (hstep : diffStep p h clean data offs calls r = (offs2, calls2, some rc)) :
    rc = rcSyntax ∨ rc = rcHandlerAborted := by
  unfold diffStep at hstep
  repeat' split at hstep
  all_goals simp only [Prod.mk.injEq] at hstep
  all_goals first
    | exact Or.inl hstep.2.2.symm
    | exact Or.inr hstep.2.2.symm
    | exact Or.inl (Option.some.inj hstep.2.2).symm
    | exact Or.inr (Option.some.inj hstep.2.2).symm
    | simp at hstep

/-- Characterization of the end-of-stream sweep: on success it appends
exactly one keyed deletion per unmarked slot, in ascending slot order,
carrying the DN read from the clean stream. -/
theorem diffSweepGo_spec (p : tparser) (h : thandler) (clean : Bytes)
    (base : Nat → Int) (m : Nat → Bool) (d : Nat → Bytes)
    (hb : ∀ j, 0 ≤ base j)
    (hd : ∀ j pe, p.read clean ((base j).toNat) = .ok (some pe) →
      d j = pe.2.dn) :
    ∀ (l : List Int) (i : Nat) (calls : List HCall),
      (∀ jj, jj < l.length → l.getD jj 0 =
        (if m (i + jj) then invertOffset (base (i + jj)) else base (i + jj))) →
      (diffSweepGo p h clean l i calls).1 = rcOk →
      (diffSweepGo p h clean l i calls).2.filterMap deleteKeyed =
        calls.filterMap deleteKeyed ++
        ((List.range' i l.length).filter fun j => ! m j).map
          (fun j => (Int.ofNat j, d j)) := by
  intro l
  induction l with
  | nil =>
    intro i calls _ _
    simp [diffSweepGo, List.range']
  | cons o rest ih =>
    intro i calls hrel hok
    have ho : o = (if m i then invertOffset (base i) else base i) := by
      have := hrel 0 (by simp)
      simpa using this
    have hrange : List.range' i (o :: rest).length =
        i :: List.range' (i + 1) rest.length := by
      simp [List.range']
    have hrel2 : ∀ jj, jj < rest.length → rest.getD jj 0 =
        (if m (i + 1 + jj) then invertOffset (base (i + 1 + jj))
         else base (i + 1 + jj)) := by
      intro jj hjj
      have := hrel (jj + 1) (by simp; omega)
      have harith : i + (jj + 1) = i + 1 + jj := by omega
      rw [harith] at this
      simpa using this
    by_cases hm : m i = true
    · have holt : o < 0 := by
        rw [ho, if_pos hm]
        have := hb i
        simp only [invertOffset]
        omega
      rw [diffSweepGo_cons_skip p h clean o rest i calls holt] at hok ⊢
      rw [ih (i + 1) calls hrel2 hok, hrange]
      simp [hm]
    · have hge : ¬ o < 0 := by
        rw [ho, if_neg hm]
        have := hb i
        omega
      have hoi : o = base i := by rw [ho, if_neg hm]
      cases hr : p.read clean (o.toNat) with
      | error e =>
        rw [diffSweepGo_cons_err p h clean o rest i calls e hge hr] at hok
        simp [rcSyntax, rcOk] at hok
      | ok oo =>
        cases oo with
        | none =>
          rw [diffSweepGo_cons_none p h clean o rest i calls hge hr] at hok
          simp [rcSyntax, rcOk] at hok
        | some pe =>
          rw [diffSweepGo_cons_read p h clean o rest i calls pe hge hr]
            at hok ⊢
          by_cases hh : h calls (HCall.hdelete i pe.2.dn) < 0
          · rw [if_pos hh] at hok
            simp [rcHandlerAborted, rcOk] at hok
          · rw [if_neg hh] at hok ⊢
            rw [ih (i + 1) _ hrel2 hok, hrange]
            have hdn : d i = pe.2.dn := by
              apply hd i pe
              rwa [← hoi]
            have hm' : m i = false := by simpa using hm
            simp [List.filter_cons, hm', deleteKeyed, hdn,
              Int.ofNat_eq_coe, List.append_assoc]

/-- Main-loop induction for deletion completeness: the offsets array
always holds the original offset, marked exactly on the slots whose
keys the already-processed records referenced, and the main loop emits
no keyed deletion itself. -/
theorem diffLoop_deletions (p : tparser) (h : thandler) (clean data : Bytes)
    (offsets : List Int) (rs : List RecInfo)
    (hnn : ∀ o ∈ offsets, 0 ≤ o) :
    ∀ (rs2 : List RecInfo) (fuel pos : Nat) (offs : List Int)
      (calls : List HCall) (rsd : List RecInfo),
      rs = rsd ++ rs2 →
      recordsFrom p data fuel pos = some rs2 →
      offs.length = offsets.length →
      (∀ j, j < offsets.length →
        offs.getD j 0 =
          (if referencesKey rsd j then invertOffset (offsets.getD j 0)
           else offsets.getD j 0)) →
      (diffLoop p h clean data fuel pos offs calls).1 = rcOk →
      (diffLoop p h clean data fuel pos offs calls).2.2.filterMap deleteKeyed
        = calls.filterMap deleteKeyed ++ sweepDeletes p clean offsets rs := by
  intro rs2
  induction rs2 with
  | nil =>
    intro fuel pos offs calls rsd hsplit hrecs hlen hoffs hok
    have hs : p.scan data pos = .ok none :=
      recordsFrom_nil_inv p data fuel pos hrecs
    have hrsd : rsd = rs := by rw [hsplit, List.append_nil]
    cases fuel with
    | zero => exact absurd hrecs (by simp [recordsFrom])
    | succ fuel =>
      rw [diffLoop_succ_eos p h clean data fuel pos offs calls hs] at hok ⊢
      dsimp only at hok ⊢
      have hb : ∀ j, (0 : Int) ≤ offsets.getD j 0 := by
        intro j
        by_cases hj : j < offsets.length
        · rw [List.getD_eq_getElem _ _ hj]
          exact hnn _ (List.getElem_mem hj)
        · rw [List.getD_eq_default _ _ (by omega)]
      have hd : ∀ j pe,
          p.read clean ((offsets.getD j 0).toNat) = .ok (some pe) →
          cleanDnAt p clean offsets j = pe.2.dn := by
        intro j pe hr
        unfold cleanDnAt
        rw [hr]
      have hrel : ∀ jj, jj < offs.length → offs.getD jj 0 =
          (if referencesKey rs (0 + jj) then
            invertOffset (offsets.getD (0 + jj) 0)
          else offsets.getD (0 + jj) 0) := by
        intro jj hjj
        have := hoffs jj (by omega)
        rw [hrsd] at this
        simpa using this
      rw [diffSweepGo_spec p h clean (fun j => offsets.getD j 0)
        (fun j => referencesKey rs j) (cleanDnAt p clean offsets) hb hd
        offs 0 calls hrel hok]
      rw [hlen]
      simp [sweepDeletes, List.range_eq_range']
  | cons r rest ih =>
    intro fuel pos offs calls rsd hsplit hrecs hlen hoffs hok
    obtain ⟨fuel2, hfuel, hs, hrest⟩ :=
      recordsFrom_cons_inv p data fuel pos r rest hrecs
    subst hfuel
    have hsplit2 : rs = (rsd ++ [r]) ++ rest := by
      rw [hsplit, List.append_assoc, List.singleton_append]
    rcases hstep : diffStep p h clean data offs calls r with ⟨offs2, calls2, out⟩
    cases out with
    | some rc =>
      rw [diffLoop_succ_term p h clean data fuel2 pos offs calls r offs2
        calls2 rc hs hstep] at hok
      rcases diffStep_term_codes p h clean data offs calls r offs2 calls2 rc
        hstep with hc | hc
      · rw [show (rc, offs2, calls2).1 = rc from rfl, hc] at hok
        simp [rcSyntax, rcOk] at hok
      · rw [show (rc, offs2, calls2).1 = rc from rfl, hc] at hok
        simp [rcHandlerAborted, rcOk] at hok
    | none =>
      rw [diffLoop_succ_cont p h clean data fuel2 pos offs calls r offs2
        calls2 hs hstep] at hok ⊢
      have hdf : calls2.filterMap deleteKeyed = calls.filterMap deleteKeyed := by
        have hh := diffStep_deleteFree p h clean data offs calls r
        rw [hstep] at hh
        exact hh
      rcases diffStep_cont_mark p h clean data offs calls r offs2 calls2 hstep
        with ⟨n, hkey, hnlt, hnneg, hinv⟩ | ⟨hkey, hsame⟩
      · have hnlt2 : n < offsets.length := by omega
        have hnotref : referencesKey rsd n = false := by
          cases hrv : referencesKey rsd n
          · rfl
          · exfalso
            have hval := hoffs n hnlt2
            rw [if_pos hrv] at hval
            have hbn : (0 : Int) ≤ offsets.getD n 0 := by
              rw [List.getD_eq_getElem _ _ hnlt2]
              exact hnn _ (List.getElem_mem hnlt2)
            apply hnneg
            rw [hval]
            simp only [invertOffset]
            omega
        have hlen2 : offs2.length = offsets.length := by
          rw [hinv]
          simpa [long_array_invert] using hlen
        have hoffs2 : ∀ j, j < offsets.length →
            offs2.getD j 0 =
              (if referencesKey (rsd ++ [r]) j then
                invertOffset (offsets.getD j 0)
              else offsets.getD j 0) := by
          intro j hj
          by_cases hjn : j = n
          · subst hjn
            rw [hinv, long_array_invert, getD_set_self_lt offs j _ (by omega),
              hoffs j hj, if_neg (by rw [hnotref]; simp),
              if_pos (by simp [referencesKey, List.any_append, hkey])]
          · have hsame2 : referencesKey (rsd ++ [r]) j =
                referencesKey rsd j := by
              simp only [referencesKey, List.any_append, List.any_cons,
                List.any_nil, Bool.or_false]
              have hfalse : (numericKey r.key == some j) = false := by
                rw [hkey]
                simp
                omega
              rw [hfalse, Bool.or_false]
            rw [hinv, long_array_invert, getD_set_ne offs n j _ hjn,
              hoffs j hj, hsame2]
        rw [ih fuel2 r.endPos offs2 calls2 (rsd ++ [r]) hsplit2 hrest hlen2
          hoffs2 hok, hdf]
      · have hoffs2 : ∀ j, j < offsets.length →
            offs2.getD j 0 =
              (if referencesKey (rsd ++ [r]) j then
                invertOffset (offsets.getD j 0)
              else offsets.getD j 0) := by
          intro j hj
          have hsame2 : referencesKey (rsd ++ [r]) j =
              referencesKey rsd j := by
            simp [referencesKey, List.any_append, hkey]
          rw [hsame, hoffs j hj, hsame2]
        rw [ih fuel2 r.endPos offs2 calls2 (rsd ++ [r]) hsplit2 hrest
          (by rw [hsame]; exact hlen) hoffs2 hok, hdf]

/-- C3: when `compare_streams` succeeds, the keyed `handle_delete`
calls (those with key ≥ 0, all emitted by the end-of-stream sweep) are
exactly one per numeric key of the offsets array that no data record
referenced, in ascending key order, each carrying the DN of the clean
record read at that key's stored offset; keys that some data record
referenced yield no such call. -/
theorem compare_streams_deletion_complete (p : tparser) (h : thandler)
    (offsets : List Int) (clean data : Bytes) (rs : List RecInfo)
    (hnn : ∀ o ∈ offsets, 0 ≤ o)
    (hrecs : records p data = some rs)
    (hok : (compare_streams p h offsets clean data).rc = rcOk) :
    (compare_streams p h offsets clean data).calls.filterMap deleteKeyed =
      sweepDeletes p clean offsets rs := by
  have hrecs2 : recordsFrom p data (diffFuel data) 0 = some rs := hrecs
  have hinit : ∀ j, j < offsets.length →
      offsets.getD j 0 =
        (if referencesKey ([] : List RecInfo) j then
          invertOffset (offsets.getD j 0)
        else offsets.getD j 0) := by
    intro j hj
    simp [referencesKey]
  have hok2 : (diffLoop p h clean data (diffFuel data) 0 offsets []).1 =
      rcOk := hok
  have hmain := diffLoop_deletions p h clean data offsets rs hnn rs
    (diffFuel data) 0 offsets [] [] rfl hrecs2 rfl hinit hok2
  have hcalls : (compare_streams p h offsets clean data).calls =
      (diffLoop p h clean data (diffFuel data) 0 offsets []).2.2 := rfl
  rw [hcalls, hmain]
  simp

/-- Clean stream of the delete-one-of-two test: two records with keys
0 and 1 at offsets 1 and 38. -/
def cleanTwo : Bytes :=
  str "\ndn: cn=a,dc=com\nldapvi-key: 0\ncn: a\n\ndn: cn=b,dc=com\nldapvi-key: 1\ncn: b\n\n"

/-- Data stream that retains only the record with key 1. -/
def dataKeepB : Bytes :=
  str "\ndn: cn=b,dc=com\nldapvi-key: 1\ncn: b\n\n"

/-- Witness for C3 at the delete-one-of-two scenario of the test
suite: key 0 is unreferenced and yields exactly one keyed deletion
with the clean record's DN; key 1 is referenced and yields none. -/
theorem compare_streams_deletion_complete_witness :
    (∀ o ∈ ([1, 38] : List Int), 0 ≤ o) ∧
    records ldif_dialect dataKeepB = some [⟨str "1", 1, 38⟩] ∧
    (compare_streams ldif_dialect okHandler [1, 38] cleanTwo dataKeepB).rc
      = rcOk ∧
    (compare_streams ldif_dialect okHandler [1, 38] cleanTwo
        dataKeepB).calls.filterMap deleteKeyed =
      sweepDeletes ldif_dialect cleanTwo [1, 38] [⟨str "1", 1, 38⟩] :=
  ⟨by decide, by decide, by decide,
   compare_streams_deletion_complete ldif_dialect okHandler [1, 38] cleanTwo
     dataKeepB [⟨str "1", 1, 38⟩] (by decide) (by decide) (by decide)⟩

end Deletions

section RenameSynthesis

/-- The claimed rename-DN rule, word for word: with `newsuperior`
absent, the parent suffix is appended after a comma whenever the old
DN has an unescaped comma, with no guard that the parent be
non-empty. -/
def rename_new_dn_claimed (olddn newrdn : Bytes) (newsup : Option Bytes) :
    Bytes :=
  match newsup with
  | some sup => if sup = [] then newrdn else newrdn ++ ',' :: sup
  | none =>
    match splitUnescapedComma olddn with
    | none => newrdn
    | some p => newrdn ++ ',' :: p.2

/-- A modrdn record whose old DN ends in an unescaped comma, so its
parent exists but is empty. -/
def renameTrailingComma : Bytes :=
  str "dn: cn=x,\nchangetype: modrdn\nnewrdn: cn=y\ndeleteoldrdn: 1\n"

/-- C5 counterexample: on an old DN with a trailing unescaped comma
(`cn=x,`), the parser synthesizes the bare `cn=y` (the empty parent is
guarded away), while the claimed rule, which appends the parent
whenever an unescaped comma exists, predicts `cn=y,`. -/
theorem read_rename_trailing_comma_counterexample :
    ldif_read_rename renameTrailingComma 0 =
      .ok (str "cn=x,", str "cn=y", 1) ∧
    rename_new_dn_claimed (str "cn=x,") (str "cn=y") none = str "cn=y," ∧
    ¬ (str "cn=y" : Bytes) = str "cn=y," := by decide

/-- C5 (amended): whenever `ldif_read_rename` succeeds, the record
parses to a raw record with a newrdn and optional newsuperior field,
and the synthesized new DN is: newrdn ++ "," ++ newsuperior when
newsuperior is present and non-empty; bare newrdn when newsuperior is
present and empty; newrdn ++ "," ++ parent when newsuperior is absent
and the old DN's parent (the suffix after its first unescaped comma)
exists and is non-empty; and bare newrdn when the parent is absent
(root-level DN) or empty. -/
theorem ldif_read_rename_new_dn (s : Bytes) (pos : Nat)
    (olddn newdn : Bytes) (dor : Nat)
    (h : ldif_read_rename s pos = .ok (olddn, newdn, dor)) :
    ∃ rr newrdn newsup,
      ldifRawRec s pos = .ok (some rr) ∧
      ldifDn rr = .ok olddn ∧
      ldifRenameFields rr.body = .ok (newrdn, dor, newsup) ∧
      newdn =
        (match newsup with
        | some sup => if sup = [] then newrdn else newrdn ++ ',' :: sup
        | none =>
          match dnParent olddn with
          | some par => if par = [] then newrdn else newrdn ++ ',' :: par
          | none => newrdn) := by
  unfold ldif_read_rename at h
  cases hrr : ldifRawRec s pos with
  | error e => rw [hrr] at h; simp [Except.bind] at h
  | ok orr =>
    rw [hrr] at h
    cases orr with
    | none => simp [Except.bind] at h
    | some rr =>
      simp only [Except.bind] at h
      cases hct : ldifChangetype rr.body with
      | error e => rw [hct] at h; simp at h
      | ok ct =>
        rw [hct] at h
        dsimp only at h
        by_cases hren : ct = str "rename"
        · rw [if_pos hren] at h
          cases hdn : ldifDn rr with
          | error e => rw [hdn] at h; simp at h
          | ok dn =>
            rw [hdn] at h
            dsimp only at h
            cases hf : ldifRenameFields rr.body with
            | error e => rw [hf] at h; simp [Except.map] at h
            | ok f =>
              rw [hf] at h
              simp only [Except.map, Except.ok.injEq, Prod.mk.injEq] at h
              obtain ⟨hdn2, hnew, hdor⟩ := h
              refine ⟨rr, f.1, f.2.2, rfl, ?_, ?_, ?_⟩
              · rw [hdn, hdn2]
              · rw [hf, ← hdor]
              · rw [← hnew, ← hdn2]
                unfold rename_new_dn
                cases f.2.2 with
                | some sup => rfl
                | none =>
                  cases dnParent dn with
                  | some par => rfl
                  | none => rfl
        · rw [if_neg hren] at h
          simp at h

/-- A modrdn record with a non-empty `newsuperior`, as in the test
suite. -/
def renameWithSup : Bytes :=
  str "dn: cn=old,dc=example,dc=com\nchangetype: modrdn\nnewrdn: cn=new\ndeleteoldrdn: 1\nnewsuperior: dc=other,dc=com\n"

/-- Witness for the amended C5 at the newsuperior scenario of the test
suite: the new DN is `newrdn ++ "," ++ newsuperior`. -/
theorem ldif_read_rename_new_dn_witness :
    ldif_read_rename renameWithSup 0 =
      .ok (str "cn=old,dc=example,dc=com", str "cn=new,dc=other,dc=com", 1) ∧
    (∃ rr newrdn newsup,
      ldifRawRec renameWithSup 0 = .ok (some rr) ∧
      ldifDn rr = .ok (str "cn=old,dc=example,dc=com") ∧
      ldifRenameFields rr.body = .ok (newrdn, 1, newsup) ∧
      (str "cn=new,dc=other,dc=com" : Bytes) =
        (match newsup with
        | some sup => if sup = [] then newrdn else newrdn ++ ',' :: sup
        | none =>
          match dnParent (str "cn=old,dc=example,dc=com") with
          | some par => if par = [] then newrdn else newrdn ++ ',' :: par
          | none => newrdn)) :=
  ⟨by decide,
   ldif_read_rename_new_dn renameWithSup 0
     (str "cn=old,dc=example,dc=com") (str "cn=new,dc=other,dc=com") 1
     (by decide)⟩

end RenameSynthesis

/-! ## Extended ("ldapvi" native) dialect (parse.c, print.c)

These definitions are modelled from the spec (sections 4.A, 4.C, 4.E)
and pinned by the expectations of the staged test suites; the password
hash gateway is external and modelled as its documented prefix plus
the plaintext. -/

/-- One physical line up to (not including) LF, plus the rest of the
stream after the LF (empty at end of stream). -/
def takeLine : Bytes → Bytes × Bytes
  | [] => ([], [])
  | '\n' :: rest => ([], rest)
  | c :: rest =>
    match takeLine rest with
    | (l, r) => (c :: l, r)

/-- Split at the first space. -/
def splitSpace : Bytes → Option (Bytes × Bytes)
  | [] => none
  | ' ' :: rest => some ([], rest)
  | c :: rest => (splitSpace rest).map fun p => (c :: p.1, p.2)

/-- Skip blank lines between records. -/
def extSkipBlank : Bytes → Bytes
  | '\n' :: rest => extSkipBlank rest
  | s => s

/-- The `version ldapvi` header is recognized and skipped only at the
very start of a stream; any other version there is BadVersion. -/
def extVersion (s : Bytes) : Except PErr Bytes :=
  match splitSpace (takeLine s).1 with
  | some p =>
    if p.1 = str "version" then
      if p.2 = str "ldapvi" then .ok (takeLine s).2 else .error .badVersion
    else .ok s
  | none => .ok s

/-- Attribute name of an extended body line: bytes up to a space or
colon delimiter; NUL, end of line or end of file inside the name are
syntax errors. -/
def extName : Bytes → Except PErr (Bytes × Char × Bytes)
  | [] => .error .badSyntax
  | ' ' :: rest => .ok ([], ' ', rest)
  | ':' :: rest => .ok ([], ':', rest)
  | '\n' :: _ => .error .badSyntax
  | c :: rest =>
    if c = '\x00' then .error .badSyntax
    else (extName rest).map fun p => (c :: p.1, p.2)

/-- Encoding token after the name colon, up to the following space. -/
def extEncTok : Bytes → Except PErr (Bytes × Bytes)
  | [] => .error .badSyntax
  | ' ' :: rest => .ok ([], rest)
  | '\n' :: _ => .error .badSyntax
  | c :: rest => (extEncTok rest).map fun p => (c :: p.1, p.2)

/-- Literal extended value: up to an unescaped LF; a backslash escapes
the next byte, so backslash-LF continues the line with a literal
newline byte and a doubled backslash is one literal backslash. -/
def extLiteral : Bytes → Except PErr (Bytes × Bytes)
  | [] => .error .badSyntax
  | '\n' :: rest => .ok ([], rest)
  | '\\' :: c :: rest => (extLiteral rest).map fun p => (c :: p.1, p.2)
  | c :: rest => (extLiteral rest).map fun p => (c :: p.1, p.2)

/-- Documented prefixes of the password-hash gateway. -/
def hashTokens (tok : Bytes) : Option Bytes :=
  if tok = str "sha" then some (str "{SHA}")
  else if tok = str "ssha" then some (str "{SSHA}")
  else if tok = str "md5" then some (str "{MD5}")
  else if tok = str "smd5" then some (str "{SMD5}")
  else if tok = str "crypt" then some (str "{CRYPT}")
  else if tok = str "cryptmd5" then some (str "{CRYPT}")
  else none

/-- Decode one extended value given its encoding token and the stream
after the delimiting space. -/
def extValue (tok rest : Bytes) : Except PErr (Bytes × Bytes) :=
  if tok = [] ∨ tok = str ";" then extLiteral rest
  else if tok = str ":" then
    (b64decode (takeLine rest).1).map fun v => (v, (takeLine rest).2)
  else if tok = str "<" then
    if List.isPrefixOf (str "file://") (takeLine rest).1 then .error .extFile
    else .error .badEncoding
  else
    match numericKey tok with
    | some n =>
      if rest.length < n then .error .badSyntax
      else
        match rest.drop n with
        | '\n' :: r => .ok (rest.take n, r)
        | _ => .error .badSyntax
    | none =>
      match hashTokens tok with
      | some pre => .ok (pre ++ (takeLine rest).1, (takeLine rest).2)
      | none => .error .badEncoding

/-- Skip the space-folded continuation lines of a comment. -/
def extSkipCont : Nat → Bytes → Bytes
  | 0, s => s
  | fuel + 1, s =>
    match s with
    | ' ' :: rest => extSkipCont fuel (takeLine rest).2
    | _ => s

/-- Body of an extended attrval record: attribute lines until a blank
line or end of stream; comments (with their folded continuations) are
skipped. -/
def extBody : Nat → Bytes → List (Bytes × Bytes) →
    Except PErr (List (Bytes × Bytes))
  | 0, _, _ => .error .badSyntax
  | _ + 1, [], acc => .ok acc
  | _ + 1, '\n' :: _, acc => .ok acc
  | fuel + 1, '#' :: rest, acc =>
    extBody fuel (extSkipCont (takeLine rest).2.length (takeLine rest).2) acc
  | fuel + 1, s, acc =>
    (extName s).bind fun nr =>
      (match nr.2.1 with
       | ' ' => extLiteral nr.2.2
       | _ => (extEncTok nr.2.2).bind fun tr => extValue tr.1 tr.2).bind
        fun vr => extBody fuel vr.2 (acc ++ [(nr.1, vr.1)])

/-- Model of parse.c `read_entry` reading the first record of the
stream: the `version ldapvi` header and blank lines are skipped; the
header line is `KEY SP DN` with a syntactic DN check; the body is
attrval lines.  `none` at end of stream. -/
def ext_read_entry (s : Bytes) : Except PErr (Option (Bytes × tentry)) :=
  (extVersion s).bind fun s1 =>
    match extSkipBlank s1 with
    | [] => .ok none
    | s2 =>
      match splitSpace (takeLine s2).1 with
      | none => .error .badSyntax
      | some kd =>
        if '=' ∈ kd.2 then
          (extBody ((takeLine s2).2.length + 1) (takeLine s2).2 []).map
            fun ps => some (kd.1, ⟨kd.2, collectAttrs ps⟩)
        else .error .badSyntax

/-! ## Pretty-printers (print.c) -/

/-- Printable-ASCII safety check on one value (`safe_string_p`): no
control or non-ASCII byte, not starting with a space or a colon. -/
def safe_string_p (v : Bytes) : Bool :=
  v.all (fun c => decide (0x20 ≤ c.toNat ∧ c.toNat ≤ 0x7e)) &&
  (match v with
   | c :: _ => !(c == ' ' || c == ':')
   | [] => true)

/-- UTF-8 validity scan with a pending continuation-byte count; NUL is
rejected as `g_utf8_validate` stops at it. -/
def utf8Go : Nat → Bytes → Bool
  | 0, [] => true
  | _ + 1, [] => false
  | 0, c :: rest =>
    if c.toNat = 0 then false
    else if c.toNat < 0x80 then utf8Go 0 rest
    else if 0xc2 ≤ c.toNat ∧ c.toNat ≤ 0xdf then utf8Go 1 rest
    else if 0xe0 ≤ c.toNat ∧ c.toNat ≤ 0xef then utf8Go 2 rest
    else if 0xf0 ≤ c.toNat ∧ c.toNat ≤ 0xf4 then utf8Go 3 rest
    else false
  | k + 1, c :: rest =>
    if 0x80 ≤ c.toNat ∧ c.toNat ≤ 0xbf then utf8Go k rest else false

/-- The three readability policies of `print_binary_mode`. -/
def readable_utf8 (v : Bytes) : Bool := utf8Go 0 v

def readable_ascii (v : Bytes) : Bool :=
  v.all fun c => decide (0 < c.toNat ∧ c.toNat < 0x80)

def readable_junk (_ : Bytes) : Bool := true

/-- Backslash-escape of literal newlines for the `:;` output form. -/
def escNl : Bytes → Bytes
  | [] => []
  | '\n' :: rest => '\\' :: '\n' :: escNl rest
  | c :: rest => c :: escNl rest

/-- One extended attribute line: safe values verbatim after `: `,
readable values newline-escaped after `:; `, anything else base64
after `:: `.  The readability policy (`print_binary_mode`) is external
configuration, passed as a predicate. -/
def ext_attr_line (readable : Bytes → Bool) (ad v : Bytes) : Bytes :=
  if safe_string_p v then ad ++ str ": " ++ v ++ str "\n"
  else if readable v then ad ++ str ":; " ++ escNl v ++ str "\n"
  else ad ++ str ":: " ++ b64encode v ++ str "\n"

/-- Fold one LDIF output line at 76 bytes (spec 4.E). -/
def fold76go : Nat → Bytes → Bytes
  | 0, l => l
  | fuel + 1, l =>
    if l.length ≤ 76 then l
    else l.take 76 ++ '\n' :: ' ' :: fold76go fuel (l.drop 76)

def fold76 (l : Bytes) : Bytes := fold76go l.length l

/-- One LDIF attribute line: safe values verbatim, others base64. -/
def ldif_attr_line (ad v : Bytes) : Bytes :=
  if safe_string_p v then fold76 (ad ++ str ": " ++ v) ++ str "\n"
  else fold76 (ad ++ str ":: " ++ b64encode v) ++ str "\n"

/-- Model of print.c `print_ldapvi_entry`: a blank line, the key (or
`entry` when absent) and DN on the header line, then one line per
value, in document order. -/
def print_ldapvi_entry (readable : Bytes → Bool) (e : tentry)
    (key : Option Bytes) : Bytes :=
  str "\n" ++ key.getD (str "entry") ++ str " " ++ e.dn ++ str "\n" ++
  (e.attrs.map fun a => (a.2.map (ext_attr_line readable a.1)).flatten).flatten

/-- Model of print.c `print_ldif_entry`: a blank line, the `dn:` line,
the `ldapvi-key:` line when a key is given, then one line per value. -/
def print_ldif_entry (e : tentry) (key : Option Bytes) : Bytes :=
  str "\n" ++
  (if safe_string_p e.dn then fold76 (str "dn: " ++ e.dn)
   else fold76 (str "dn:: " ++ b64encode e.dn)) ++ str "\n" ++
  (match key with
   | some k => str "ldapvi-key: " ++ k ++ str "\n"
   | none => []) ++
  (e.attrs.map fun a => (a.2.map (ldif_attr_line a.1)).flatten).flatten

/-! ## Canonical record classes

Character classes under which a record prints to one canonical line
per value and parses back exactly.  The classes are decidable so that
witnesses evaluate. -/

/-- Printable ASCII byte. -/
def plainChar (c : Char) : Bool := decide (0x20 ≤ c.toNat ∧ c.toNat ≤ 0x7e)

/-- Attribute description fit for canonical lines: nonempty, printable,
free of space, colon, backslash and hash, and none of the names the
LDIF reader treats specially. -/
def adOk (ad : Bytes) : Bool :=
  !ad.isEmpty &&
  ad.all (fun c => plainChar c && !(c == ' ' || c == ':' || c == '\\' || c == '#')) &&
  !(ad == str "changetype" || ad == str "ldapvi-key" || ad == str "control")

/-- Value fit for verbatim printing in both dialects: safe and free of
backslashes (which the extended literal reader would unescape). -/
def valOk (v : Bytes) : Bool := safe_string_p v && decide (¬ '\\' ∈ v)

/-- A DN fit for canonical records: safe and syntactically a DN. -/
def dnOk (dn : Bytes) : Bool := decide ('=' ∈ dn) && safe_string_p dn

/-- A record key fit for canonical records: nonempty, printable, free
of spaces, and not the version keyword. -/
def keyOk (k : Bytes) : Bool :=
  !k.isEmpty && k.all (fun c => plainChar c && !(c == ' ')) &&
  !(k == str "version")

/-- Case-insensitively distinct attribute descriptions. -/
def adsDistinct : List (Bytes × List Bytes) → Bool
  | [] => true
  | a :: rest => rest.all (fun b => !adEq a.1 b.1) && adsDistinct rest

/-- Entry whose canonical print parses back exactly: safe short DN,
canonical descriptions pairwise distinct, every attribute non-empty
with canonical values short enough to escape LDIF folding. -/
def entryOk (e : tentry) : Bool :=
  dnOk e.dn && decide (e.dn.length ≤ 72) &&
  e.attrs.all (fun a => adOk a.1 && !a.2.isEmpty &&
    a.2.all (fun v => valOk v && decide (a.1.length + v.length + 2 ≤ 76))) &&
  adsDistinct e.attrs

/-- The (description, value) pairs of an attribute list in document
order. -/
def pairsOf (attrs : List (Bytes × List Bytes)) : List (Bytes × Bytes) :=
  (attrs.map fun a => a.2.map fun v => (a.1, v)).flatten

theorem adEq_symm (a b : Bytes) : adEq a b = adEq b a := by
  simp only [adEq]
  rcases h : a.map lowerChar == b.map lowerChar
  · simp only [beq_eq_false_iff_ne] at h
    exact (beq_eq_false_iff_ne.mpr fun hx => h hx.symm).symm
  · simp only [beq_iff_eq] at h
    exact (beq_iff_eq.mpr h.symm).symm

theorem appendAttrValue_new (acc : List (Bytes × List Bytes)) (ad v : Bytes)
    (h : ∀ b ∈ acc, adEq b.1 ad = false) :
    appendAttrValue acc ad v = acc ++ [(ad, [v])] := by
  induction acc with
  | nil => rfl
  | cons b rest ih =>
    show appendAttrValue (b :: rest) ad v = b :: rest ++ [(ad, [v])]
    unfold appendAttrValue
    rw [if_neg (by rw [h b (by simp)]; simp)]
    rw [ih fun b2 hb2 => h b2 (by simp [hb2])]
    rfl

theorem appendAttrValue_last (acc : List (Bytes × List Bytes))
    (ad v : Bytes) (vs : List Bytes)
    (h : ∀ b ∈ acc, adEq b.1 ad = false) :
    appendAttrValue (acc ++ [(ad, vs)]) ad v = acc ++ [(ad, vs ++ [v])] := by
  induction acc with
  | nil =>
    show appendAttrValue [(ad, vs)] ad v = [(ad, vs ++ [v])]
    unfold appendAttrValue
    rw [if_pos (by simp [adEq])]
  | cons b rest ih =>
    show appendAttrValue (b :: (rest ++ [(ad, vs)])) ad v =
      b :: (rest ++ [(ad, vs ++ [v])])
    unfold appendAttrValue
    rw [if_neg (by rw [h b (by simp)]; simp)]
    rw [ih fun b2 hb2 => h b2 (by simp [hb2])]

theorem collect_group (ad : Bytes) (vs : List Bytes) (vs0 : List Bytes)
    (acc : List (Bytes × List Bytes))
    (h : ∀ b ∈ acc, adEq b.1 ad = false) :
    (vs.map fun v => (ad, v)).foldl
        (fun a p => appendAttrValue a p.1 p.2) (acc ++ [(ad, vs0)]) =
      acc ++ [(ad, vs0 ++ vs)] := by
  induction vs generalizing vs0 with
  | nil => simp
  | cons v rest ih =>
    simp only [List.map_cons, List.foldl_cons]
    rw [appendAttrValue_last acc ad v vs0 h, ih (vs0 ++ [v])]
    simp

theorem collect_pairsOf_go (attrs : List (Bytes × List Bytes))
    (acc : List (Bytes × List Bytes))
    (hne : ∀ a ∈ attrs, a.2 ≠ [])
    (hdis : adsDistinct attrs = true)
    (hacc : ∀ a ∈ attrs, ∀ b ∈ acc, adEq b.1 a.1 = false) :
    (pairsOf attrs).foldl (fun a p => appendAttrValue a p.1 p.2) acc =
      acc ++ attrs := by
  induction attrs generalizing acc with
  | nil => simp [pairsOf]
  | cons a rest ih =>
    obtain ⟨ad, avs⟩ := a
    simp only [pairsOf, List.map_cons, List.flatten_cons, List.foldl_append]
    rcases avs with _ | ⟨v, vs⟩
    · have := hne (ad, []) (by simp)
      simp at this
    · have hacc1 : ∀ b ∈ acc, adEq b.1 ad = false :=
        fun b hb => hacc (ad, v :: vs) (by simp) b hb
      have hstep : ((v :: vs).map fun v2 => ((ad : Bytes), v2)).foldl
          (fun x p => appendAttrValue x p.1 p.2) acc =
          acc ++ [(ad, v :: vs)] := by
        simp only [List.map_cons, List.foldl_cons]
        rw [appendAttrValue_new acc ad v hacc1,
          collect_group ad vs [v] acc hacc1]
        rfl
      rw [hstep]
      have hdis2 : adsDistinct rest = true := by
        simp only [adsDistinct, Bool.and_eq_true] at hdis
        exact hdis.2
      have hacc2 : ∀ a2 ∈ rest, ∀ b ∈ acc ++ [((ad : Bytes), v :: vs)],
          adEq b.1 a2.1 = false := by
        intro a2 ha2 b hb
        rcases List.mem_append.mp hb with hb1 | hb2
        · exact hacc a2 (by simp [ha2]) b hb1
        · have hb3 : b = (ad, v :: vs) := by simpa using hb2
          subst hb3
          simp only [adsDistinct, Bool.and_eq_true, List.all_eq_true] at hdis
          have := hdis.1 a2 ha2
          simpa using this
      have hres := ih (acc ++ [(ad, v :: vs)])
        (fun a2 h2 => hne a2 (by simp [h2])) hdis2 hacc2
      rw [show pairsOf rest =
          (rest.map fun a2 => a2.2.map fun v2 => (a2.1, v2)).flatten from rfl]
        at hres
      rw [hres, List.append_assoc]
      rfl

/-- A normalized attribute list survives pair flattening and
regrouping. -/
theorem collectAttrs_pairsOf (attrs : List (Bytes × List Bytes))
    (hne : ∀ a ∈ attrs, a.2 ≠ [])
    (hdis : adsDistinct attrs = true) :
    collectAttrs (pairsOf attrs) = attrs := by
  have := collect_pairsOf_go attrs [] hne hdis (by intro a _ b hb; simp at hb)
  simpa [collectAttrs] using this

/-! ## Canonical-line lemmas for the extended dialect -/

theorem takeLine_append (xs ys : Bytes) (h : '\n' ∉ xs) :
    takeLine (xs ++ '\n' :: ys) = (xs, ys) := by
  induction xs with
  | nil => rfl
  | cons c rest ih =>
    have hc : c ≠ '\n' := fun hcc => h (by simp [hcc])
    have hrest : '\n' ∉ rest := fun hr => h (by simp [hr])
    show takeLine (c :: (rest ++ '\n' :: ys)) = (c :: rest, ys)
    conv_lhs => unfold takeLine
    split
    · simp_all
    · rename_i heq
      obtain ⟨h1, h2⟩ := List.cons.inj heq
      exact absurd h1 hc
    · rename_i c2 rest2 heq
      obtain ⟨h1, h2⟩ := List.cons.inj heq
      subst h1
      rw [← h2, ih hrest]

theorem splitSpace_append (xs ys : Bytes) (h : ' ' ∉ xs) :
    splitSpace (xs ++ ' ' :: ys) = some (xs, ys) := by
  induction xs with
  | nil => rfl
  | cons c rest ih =>
    have hc : c ≠ ' ' := fun hcc => h (by simp [hcc])
    have hrest : ' ' ∉ rest := fun hr => h (by simp [hr])
    show splitSpace (c :: (rest ++ ' ' :: ys)) = some (c :: rest, ys)
    conv_lhs => unfold splitSpace
    split
    · simp_all
    · rename_i heq
      obtain ⟨h1, h2⟩ := List.cons.inj heq
      exact absurd h1 hc
    · rename_i c2 rest2 heq
      obtain ⟨h1, h2⟩ := List.cons.inj heq
      subst h1
      rw [← h2, ih hrest]
      rfl

theorem extSkipBlank_ne (c : Char) (s : Bytes) (h : ¬ c = '\n') :
    extSkipBlank (c :: s) = c :: s := by
  conv_lhs => unfold extSkipBlank
  split
  · rename_i heq
    obtain ⟨h1, h2⟩ := List.cons.inj heq
    exact absurd h1 h
  · rfl

theorem extName_append (ad ys : Bytes) (d : Char)
    (hd : d = ' ' ∨ d = ':')
    (h : ∀ c ∈ ad, ¬ (c = ' ' ∨ c = ':' ∨ c = '\n' ∨ c = '\x00')) :
    extName (ad ++ d :: ys) = .ok (ad, d, ys) := by
  induction ad with
  | nil =>
    rcases hd with hd | hd <;> subst hd <;> rfl
  | cons c rest ih =>
    have hc := h c (by simp)
    have hrest : ∀ c2 ∈ rest, ¬ (c2 = ' ' ∨ c2 = ':' ∨ c2 = '\n' ∨ c2 = '\x00') :=
      fun c2 h2 => h c2 (by simp [h2])
    show extName (c :: (rest ++ d :: ys)) = .ok (c :: rest, d, ys)
    conv_lhs => unfold extName
    split
    · simp_all
    · rename_i heq
      obtain ⟨h1, _⟩ := List.cons.inj heq
      exact absurd (Or.inl h1) hc
    · rename_i heq
      obtain ⟨h1, _⟩ := List.cons.inj heq
      exact absurd (Or.inr (Or.inl h1)) hc
    · rename_i heq
      obtain ⟨h1, _⟩ := List.cons.inj heq
      exact absurd (Or.inr (Or.inr (Or.inl h1))) hc
    · rename_i c2 rest2 heq
      obtain ⟨h1, h2⟩ := List.cons.inj heq
      subst h1
      rw [if_neg (fun hz => hc (Or.inr (Or.inr (Or.inr hz))))]
      rw [← h2, ih hrest]
      rfl

theorem extLiteral_append (v ys : Bytes)
    (h : ∀ c ∈ v, ¬ (c = '\\' ∨ c = '\n')) :
    extLiteral (v ++ '\n' :: ys) = .ok (v, ys) := by
  induction v with
  | nil => rfl
  | cons c rest ih =>
    have hc := h c (by simp)
    have hrest : ∀ c2 ∈ rest, ¬ (c2 = '\\' ∨ c2 = '\n') :=
      fun c2 h2 => h c2 (by simp [h2])
    show extLiteral (c :: (rest ++ '\n' :: ys)) = .ok (c :: rest, ys)
    conv_lhs => unfold extLiteral
    split
    · simp_all
    · rename_i heq
      obtain ⟨h1, _⟩ := List.cons.inj heq
      exact absurd (Or.inr h1) hc
    · rename_i heq
      obtain ⟨h1, _⟩ := List.cons.inj heq
      exact absurd (Or.inl h1) hc
    · rename_i c2 rest2 heq
      obtain ⟨h1, h2⟩ := List.cons.inj heq
      subst h1
      rw [← h2, ih hrest]
      rfl

/-- The canonical line of one (description, value) pair, and the body
text of a pair list. -/
def lineOf (p : Bytes × Bytes) : Bytes := p.1 ++ str ": " ++ p.2 ++ str "\n"

def extLinesOf (ps : List (Bytes × Bytes)) : Bytes := (ps.map lineOf).flatten

theorem extBody_cons_attr (fuel : Nat) (c : Char) (s2 : Bytes)
    (acc : List (Bytes × Bytes)) (h1 : ¬ c = '\n') (h2 : ¬ c = '#') :
    extBody (fuel + 1) (c :: s2) acc =
      (extName (c :: s2)).bind fun nr =>
        (match nr.2.1 with
         | ' ' => extLiteral nr.2.2
         | _ => (extEncTok nr.2.2).bind fun tr => extValue tr.1 tr.2).bind
          fun vr => extBody fuel vr.2 (acc ++ [(nr.1, vr.1)]) := by
  conv_lhs => unfold extBody
  split
  · rename_i heq
    exact absurd heq (by omega)
  · rename_i hf hs
    simp at hs
  · rename_i hf hs
    exact absurd (List.cons.inj hs).1 h1
  · rename_i hf hs
    exact absurd (List.cons.inj hs).1 h2
  · rename_i hf hx1 hx2 hx3
    rw [← Nat.succ_injective hf]

/-- Walking a body of canonical attribute lines accumulates exactly the
pairs, in order. -/
theorem extBody_lines (ps : List (Bytes × Bytes)) :
    ∀ (fuel : Nat) (acc : List (Bytes × Bytes)),
      (extLinesOf ps).length < fuel →
      (∀ p ∈ ps, adOk p.1 = true ∧ valOk p.2 = true) →
      extBody fuel (extLinesOf ps) acc = .ok (acc ++ ps) := by
  induction ps with
  | nil =>
    intro fuel acc hfuel _
    cases fuel with
    | zero => exact absurd hfuel (by simp [extLinesOf])
    | succ f => simp [extLinesOf, extBody]
  | cons p rest ih =>
    intro fuel acc hfuel hps
    obtain ⟨had, hval⟩ := hps p (by simp)
    obtain ⟨ad, v⟩ := p
    simp only [adOk, Bool.and_eq_true, List.all_eq_true, Bool.not_eq_true',
      beq_eq_false_iff_ne] at had
    obtain ⟨⟨hne, hchars⟩, _⟩ := had
    rcases had : ad with _ | ⟨c, ad'⟩
    · rw [had] at hne
      simp at hne
    · rw [had] at hchars hval hfuel
      have hstream : extLinesOf ((c :: ad', v) :: rest) =
          c :: (ad' ++ ':' :: ' ' :: (v ++ '\n' :: extLinesOf rest)) := by
        simp [extLinesOf, lineOf, str, List.append_assoc]
      rw [hstream]
      cases fuel with
      | zero => exact absurd hfuel (by simp)
      | succ f =>
        have hc := hchars c (by simp)
        have hcp : plainChar c = true := by
          simpa using hc.1
        have hcnl : ¬ c = '\n' := by
          intro hx
          rw [hx] at hcp
          simp [plainChar] at hcp
        have hch : ¬ c = '#' := by
          intro hx
          have := hc.2
          simp [hx] at this
        rw [extBody_cons_attr f c _ acc hcnl hch]
        have hnm : extName (c :: (ad' ++ ':' :: ' ' :: (v ++ '\n' ::
            extLinesOf rest))) =
            .ok (c :: ad', ':', ' ' :: (v ++ '\n' :: extLinesOf rest)) := by
          have hgen : ∀ c2 ∈ c :: ad',
              ¬ (c2 = ' ' ∨ c2 = ':' ∨ c2 = '\n' ∨ c2 = '\x00') := by
            intro c2 h2
            have hx := hchars c2 h2
            have hxp : plainChar c2 = true := by simpa using hx.1
            have hxo := hx.2
            intro hbad
            rcases hbad with hb | hb | hb | hb
            · simp [hb] at hxo
            · simp [hb] at hxo
            · rw [hb] at hxp; simp [plainChar] at hxp
            · rw [hb] at hxp; simp [plainChar] at hxp
          have := extName_append (c :: ad')
            (' ' :: (v ++ '\n' :: extLinesOf rest)) ':' (Or.inr rfl) hgen
          simpa using this
        rw [hnm]
        simp only [Except.bind]
        have hlit : extLiteral (v ++ '\n' :: extLinesOf rest) =
            .ok (v, extLinesOf rest) := by
          apply extLiteral_append
          intro c2 h2
          simp only [valOk, safe_string_p, Bool.and_eq_true,
            List.all_eq_true] at hval
          obtain ⟨⟨hallv, _⟩, hnb⟩ := hval
          have hvp := hallv c2 h2
          have hnb2 : ¬ '\\' ∈ v := by simpa using hnb
          intro hbad
          rcases hbad with hb | hb
          · rw [hb] at h2
            exact hnb2 h2
          · rw [hb] at hvp
            simp at hvp
        have hval2 : extValue [] (v ++ '\n' :: extLinesOf rest) =
            .ok (v, extLinesOf rest) := by
          unfold extValue
          rw [if_pos (Or.inl rfl)]
          exact hlit
        rw [show extEncTok (' ' :: (v ++ '\n' :: extLinesOf rest)) =
          .ok ([], v ++ '\n' :: extLinesOf rest) from rfl]
        simp only [Except.bind]
        rw [hval2]
        show extBody f (extLinesOf rest) (acc ++ [(c :: ad', v)]) =
          Except.ok (acc ++ (c :: ad', v) :: rest)
        rw [ih f (acc ++ [(c :: ad', v)]) (by
            rw [hstream] at hfuel
            simp only [List.length_cons, List.length_append] at hfuel ⊢
            omega)
          (fun p2 hp2 => hps p2 (by simp [hp2]))]
        simp

/-- Reading one canonical extended record `KEY SP DN LF body`. -/
theorem keyOk_facts (c : Char) (k' : Bytes) (hk : keyOk (c :: k') = true) :
    (∀ c2 ∈ c :: k', ¬ c2 = '\n') ∧ ' ' ∉ (c :: k') ∧
    ¬ c :: k' = str "version" := by
  simp only [keyOk, Bool.and_eq_true, List.all_eq_true, Bool.not_eq_true',
    beq_eq_false_iff_ne] at hk
  obtain ⟨⟨_, hkch⟩, hkver⟩ := hk
  refine ⟨?_, ?_, hkver⟩
  · intro c2 h2
    have := (hkch c2 h2).1
    intro hx
    rw [hx] at this
    simp [plainChar] at this
  · intro hmem
    have := (hkch ' ' hmem).2
    simp at this

theorem ext_read_entry_canonical (c : Char) (k' dn body : Bytes)
    (ps : List (Bytes × Bytes))
    (hk : keyOk (c :: k') = true)
    (hdn_nl : '\n' ∉ dn) (hdn_eq : '=' ∈ dn)
    (hbody : extBody (body.length + 1) body [] = .ok ps) :
    ext_read_entry (c :: ((k' ++ ' ' :: dn) ++ '\n' :: body)) =
      .ok (some (c :: k', ⟨dn, collectAttrs ps⟩)) := by
  obtain ⟨hknl, hksp, hkver⟩ := keyOk_facts c k' hk
  have hcnl : ¬ c = '\n' := hknl c (by simp)
  have hhdr : c :: ((k' ++ ' ' :: dn) ++ '\n' :: body) =
      (c :: (k' ++ ' ' :: dn)) ++ '\n' :: body := by simp
  have hhdr2 : c :: (k' ++ ' ' :: dn) = (c :: k') ++ ' ' :: dn := by simp
  have hnl : '\n' ∉ c :: (k' ++ ' ' :: dn) := by
    intro hmem
    rcases List.mem_cons.mp hmem with h1 | h1
    · exact hcnl h1.symm
    · rcases List.mem_append.mp h1 with h2 | h2
      · exact hknl '\n' (by simp [h2]) rfl
      · rcases List.mem_cons.mp h2 with h3 | h3
        · simp at h3
        · exact hdn_nl h3
  have htl : takeLine (c :: ((k' ++ ' ' :: dn) ++ '\n' :: body)) =
      (c :: (k' ++ ' ' :: dn), body) := by
    rw [hhdr]
    exact takeLine_append _ _ hnl
  have hsp : splitSpace (c :: (k' ++ ' ' :: dn)) = some (c :: k', dn) := by
    rw [hhdr2]
    exact splitSpace_append _ _ hksp
  have hver : extVersion (c :: ((k' ++ ' ' :: dn) ++ '\n' :: body)) =
      .ok (c :: ((k' ++ ' ' :: dn) ++ '\n' :: body)) := by
    unfold extVersion
    rw [htl]
    dsimp only
    rw [hsp]
    dsimp only
    rw [if_neg hkver]
  have hskip : extSkipBlank (c :: ((k' ++ ' ' :: dn) ++ '\n' :: body)) =
      c :: ((k' ++ ' ' :: dn) ++ '\n' :: body) :=
    extSkipBlank_ne c _ hcnl
  unfold ext_read_entry
  rw [hver]
  simp only [Except.bind]
  rw [hskip]
  dsimp only
  rw [htl]
  dsimp only
  rw [hsp]
  dsimp only
  rw [if_pos hdn_eq, hbody]
  rfl

/-- A leading blank line before a canonical record is skipped. -/
theorem ext_read_entry_canonical_blank (c : Char) (k' dn body : Bytes)
    (ps : List (Bytes × Bytes))
    (hk : keyOk (c :: k') = true)
    (hdn_nl : '\n' ∉ dn) (hdn_eq : '=' ∈ dn)
    (hbody : extBody (body.length + 1) body [] = .ok ps) :
    ext_read_entry ('\n' :: c :: ((k' ++ ' ' :: dn) ++ '\n' :: body)) =
      .ok (some (c :: k', ⟨dn, collectAttrs ps⟩)) := by
  obtain ⟨hknl, hksp, hkver⟩ := keyOk_facts c k' hk
  have hcnl : ¬ c = '\n' := hknl c (by simp)
  have hnl : '\n' ∉ c :: (k' ++ ' ' :: dn) := by
    intro hmem
    rcases List.mem_cons.mp hmem with h1 | h1
    · exact hcnl h1.symm
    · rcases List.mem_append.mp h1 with h2 | h2
      · exact hknl '\n' (by simp [h2]) rfl
      · rcases List.mem_cons.mp h2 with h3 | h3
        · simp at h3
        · exact hdn_nl h3
  have htl : takeLine (c :: ((k' ++ ' ' :: dn) ++ '\n' :: body)) =
      (c :: (k' ++ ' ' :: dn), body) := by
    rw [show c :: ((k' ++ ' ' :: dn) ++ '\n' :: body) =
      (c :: (k' ++ ' ' :: dn)) ++ '\n' :: body from by simp]
    exact takeLine_append _ _ hnl
  have hsp : splitSpace (c :: (k' ++ ' ' :: dn)) = some (c :: k', dn) := by
    rw [show c :: (k' ++ ' ' :: dn) = (c :: k') ++ ' ' :: dn from by simp]
    exact splitSpace_append _ _ hksp
  have hver : extVersion (c :: ((k' ++ ' ' :: dn) ++ '\n' :: body)) =
      .ok (c :: ((k' ++ ' ' :: dn) ++ '\n' :: body)) := by
    unfold extVersion
    rw [htl]
    dsimp only
    rw [hsp]
    dsimp only
    rw [if_neg hkver]
  have hblank : ext_read_entry ('\n' :: c :: ((k' ++ ' ' :: dn) ++ '\n' :: body)) =
      ext_read_entry (c :: ((k' ++ ' ' :: dn) ++ '\n' :: body)) := by
    unfold ext_read_entry
    rw [show extVersion ('\n' :: c :: ((k' ++ ' ' :: dn) ++ '\n' :: body)) =
      .ok ('\n' :: c :: ((k' ++ ' ' :: dn) ++ '\n' :: body)) from rfl, hver]
    simp only [Except.bind]
    rw [show extSkipBlank ('\n' :: c :: ((k' ++ ' ' :: dn) ++ '\n' :: body)) =
      extSkipBlank (c :: ((k' ++ ' ' :: dn) ++ '\n' :: body)) from rfl]
  rw [hblank]
  exact ext_read_entry_canonical c k' dn body ps hk hdn_nl hdn_eq hbody

/-- The printed body of an all-safe entry is its canonical line
list. -/
theorem print_body_lines (readable : Bytes → Bool)
    (attrs : List (Bytes × List Bytes))
    (h : ∀ a ∈ attrs, ∀ v ∈ a.2, safe_string_p v = true) :
    (attrs.map fun a => (a.2.map (ext_attr_line readable a.1)).flatten).flatten
      = extLinesOf (pairsOf attrs) := by
  induction attrs with
  | nil => rfl
  | cons a rest ih =>
    have hgrp : (a.2.map (ext_attr_line readable a.1)).flatten =
        extLinesOf (a.2.map fun v => (a.1, v)) := by
      unfold extLinesOf
      rw [List.map_map]
      have : a.2.map (ext_attr_line readable a.1) =
          a.2.map (lineOf ∘ fun v => (a.1, v)) := by
        apply List.map_congr_left
        intro v hv
        have hsafe := h a (by simp) v hv
        simp only [Function.comp, lineOf]
        unfold ext_attr_line
        rw [if_pos hsafe]
      rw [this]
    have hrest : ∀ a2 ∈ rest, ∀ v ∈ a2.2, safe_string_p v = true :=
      fun a2 h2 v hv => h a2 (by simp [h2]) v hv
    simp only [List.map_cons, List.flatten_cons, hgrp, ih hrest]
    rw [show pairsOf (a :: rest) =
      (a.2.map fun v => (a.1, v)) ++ pairsOf rest from by simp [pairsOf]]
    simp [extLinesOf]

/-- Extended-dialect half of the roundtrip: a canonical entry printed
by `print_ldapvi_entry` parses back exactly, under any readability
policy. -/
theorem ext_print_parse (readable : Bytes → Bool) (e : tentry) (k : Bytes)
    (he : entryOk e = true) (hk : keyOk k = true) :
    ext_read_entry (print_ldapvi_entry readable e (some k)) =
      .ok (some (k, e)) := by
  obtain ⟨dn, attrs⟩ := e
  simp only [entryOk, Bool.and_eq_true, List.all_eq_true] at he
  obtain ⟨⟨⟨hdn, hdnlen⟩, hall⟩, hdis⟩ := he
  cases k with
  | nil => simp [keyOk] at hk
  | cons c k' =>
    have hsafe_dn : safe_string_p dn = true := by
      simp only [dnOk, Bool.and_eq_true] at hdn
      exact hdn.2
    have hdn_eq : '=' ∈ dn := by
      simp only [dnOk, Bool.and_eq_true, decide_eq_true_eq] at hdn
      exact hdn.1
    have hdn_nl : '\n' ∉ dn := by
      intro hmem
      simp only [safe_string_p, Bool.and_eq_true, List.all_eq_true] at hsafe_dn
      have := hsafe_dn.1 '\n' hmem
      simp at this
    have hvsafe : ∀ a ∈ attrs, ∀ v ∈ a.2, safe_string_p v = true := by
      intro a ha v hv
      obtain ⟨_, hvals⟩ := hall a ha
      have := hvals v hv
      simp only [Bool.and_eq_true, valOk] at this
      exact this.1.1
    have hb : (attrs.map fun a =>
        (a.2.map (ext_attr_line readable a.1)).flatten).flatten
        = extLinesOf (pairsOf attrs) := print_body_lines readable attrs hvsafe
    have hpairs : ∀ p ∈ pairsOf attrs, adOk p.1 = true ∧ valOk p.2 = true := by
      intro p hp
      simp only [pairsOf, List.mem_flatten, List.mem_map] at hp
      obtain ⟨l, ⟨a, ha, hla⟩, hpl⟩ := hp
      rw [← hla] at hpl
      simp only [List.mem_map] at hpl
      obtain ⟨v, hv, hvp⟩ := hpl
      obtain ⟨⟨hada, _⟩, hvals⟩ := hall a ha
      have hval := hvals v hv
      simp only [Bool.and_eq_true] at hval
      rw [← hvp]
      exact ⟨hada, hval.1⟩
    have hbody2 : extBody ((extLinesOf (pairsOf attrs)).length + 1)
        (extLinesOf (pairsOf attrs)) [] = .ok (pairsOf attrs) := by
      have := extBody_lines (pairsOf attrs)
        ((extLinesOf (pairsOf attrs)).length + 1) [] (by omega) hpairs
      simpa using this
    have hne : ∀ a ∈ attrs, a.2 ≠ [] := by
      intro a ha
      obtain ⟨⟨_, hne2⟩, _⟩ := hall a ha
      simpa using hne2
    have hprint : print_ldapvi_entry readable ⟨dn, attrs⟩ (some (c :: k')) =
        '\n' :: c :: ((k' ++ ' ' :: dn) ++ '\n' :: extLinesOf (pairsOf attrs)) := by
      simp [print_ldapvi_entry, hb, str]
    rw [hprint, ext_read_entry_canonical_blank c k' dn _ (pairsOf attrs) hk
      hdn_nl hdn_eq hbody2, collectAttrs_pairsOf attrs hne hdis]

/-! ## Canonical-line lemmas for the LDIF dialect -/

/-- Join newline-free lines back into a stream, one LF after each. -/
def joinLines : List Bytes → Bytes
  | [] => []
  | l :: ls => l ++ '\n' :: joinLines ls

theorem splitLines_cons_line (l t : Bytes) (h : '\n' ∉ l) :
    splitLines (l ++ '\n' :: t) =
      (l :: (splitLines t).1, (splitLines t).2) := by
  induction l with
  | nil => rfl
  | cons c rest ih =>
    have hc : c ≠ '\n' := fun hcc => h (by simp [hcc])
    have hrest : '\n' ∉ rest := fun hr => h (by simp [hr])
    show splitLines (c :: (rest ++ '\n' :: t)) =
      ((c :: rest) :: (splitLines t).1, (splitLines t).2)
    conv_lhs => unfold splitLines
    split
    · simp_all
    · rename_i heq
      exact absurd (List.cons.inj heq).1 hc
    · rename_i c2 rest2 heq
      obtain ⟨h1, h2⟩ := List.cons.inj heq
      subst h1
      rw [← h2, ih hrest]

theorem splitLines_join (ls : List Bytes) (h : ∀ l ∈ ls, '\n' ∉ l) :
    splitLines (joinLines ls) = (ls, none) := by
  induction ls with
  | nil => rfl
  | cons l rest ih =>
    show splitLines (l ++ '\n' :: joinLines rest) = (l :: rest, none)
    rw [splitLines_cons_line l _ (h l (by simp)),
      ih fun l2 h2 => h l2 (by simp [h2])]

theorem joinLines_length (ls : List Bytes) :
    (joinLines ls).length = ((ls.map fun l => l.length + 1)).sum := by
  induction ls with
  | nil => rfl
  | cons l rest ih =>
    show (l ++ '\n' :: joinLines rest).length = _
    simp [ih]
    omega

theorem logicalLines_simple (ls : List Bytes)
    (h : ∀ l ∈ ls, isCont l = false ∧ stripCR l = l) :
    logicalLines ls = ls.map fun l => (l, l.length + 1) := by
  induction ls with
  | nil => rfl
  | cons l rest ih =>
    conv_lhs => unfold logicalLines
    rw [ih fun l2 h2 => h l2 (by simp [h2])]
    rcases rest with _ | ⟨r, rest'⟩
    · simp [(h l (by simp)).2]
    · simp only [List.map_cons]
      rw [show headIsCont (r :: rest') = isCont r from rfl,
        (h r (by simp)).1]
      simp [(h l (by simp)).2]

theorem ldifBody_all (ls : List Bytes) (pos : Nat)
    (h : ∀ l ∈ ls, l ≠ []) :
    ldifBody (ls.map fun l => (l, l.length + 1)) pos false =
      .ok (ls, pos + ((ls.map fun l => l.length + 1)).sum) := by
  induction ls generalizing pos with
  | nil => simp [ldifBody]
  | cons l rest ih =>
    simp only [List.map_cons]
    unfold ldifBody
    rw [if_neg (h l (by simp))]
    rw [ih (pos + (l.length + 1)) fun l2 h2 => h l2 (by simp [h2])]
    simp only [Except.map, List.sum_cons]
    congr 2
    omega

theorem fold76_id (l : Bytes) (h : l.length ≤ 76) : fold76 l = l := by
  unfold fold76
  cases hl : l.length with
  | zero => rfl
  | succ m =>
    unfold fold76go
    rw [if_pos (by omega)]

theorem dropSpaces_safe (v : Bytes) (hs : safe_string_p v = true) :
    dropSpaces v = v := by
  rcases v with _ | ⟨c, rest⟩
  · rfl
  · simp only [safe_string_p, Bool.and_eq_true] at hs
    have := hs.2
    simp only [Bool.not_eq_true', Bool.or_eq_false_iff] at this
    unfold dropSpaces
    rw [List.dropWhile_cons, if_neg (by
      simp only [beq_eq_false_iff_ne] at this
      simpa using this.1)]

theorem splitColon_append (xs ys : Bytes) (h : ':' ∉ xs) :
    splitColon (xs ++ ':' :: ys) = some (xs, ys) := by
  induction xs with
  | nil => rfl
  | cons c rest ih =>
    have hc : c ≠ ':' := fun hcc => h (by simp [hcc])
    have hrest : ':' ∉ rest := fun hr => h (by simp [hr])
    show splitColon (c :: (rest ++ ':' :: ys)) = some (c :: rest, ys)
    conv_lhs => unfold splitColon
    split
    · simp_all
    · rename_i heq
      exact absurd (List.cons.inj heq).1 hc
    · rename_i c2 rest2 heq
      obtain ⟨h1, h2⟩ := List.cons.inj heq
      subst h1
      rw [← h2, ih hrest]
      rfl

theorem ldifValue_space (v : Bytes) (hs : safe_string_p v = true) :
    ldifValue (' ' :: v) = .ok v := by
  show Except.ok (dropSpaces (' ' :: v)) = Except.ok v
  rw [show dropSpaces (' ' :: v) = dropSpaces v from by
    unfold dropSpaces; rw [List.dropWhile_cons, if_pos (by simp)]]
  rw [dropSpaces_safe v hs]

/-- Canonical LDIF body lines of a pair list (no LF, as logical
lines). -/
def ldifLinesOf (ps : List (Bytes × Bytes)) : List Bytes :=
  ps.map fun p => p.1 ++ ':' :: ' ' :: p.2

theorem adOk_facts (ad : Bytes) (h : adOk ad = true) :
    ad ≠ [] ∧ ':' ∉ ad ∧ '\x00' ∉ ad ∧ '\n' ∉ ad ∧
    (∀ hc : ad ≠ [], ad.head hc ≠ '#') ∧
    ad ≠ str "changetype" ∧ ad ≠ str "ldapvi-key" ∧ ad ≠ str "control" := by
  simp only [adOk, Bool.and_eq_true, List.all_eq_true, Bool.not_eq_true',
    Bool.or_eq_false_iff, beq_eq_false_iff_ne] at h
  obtain ⟨⟨hne, hch⟩, hnames⟩ := h
  have hne2 : ad ≠ [] := by simpa using hne
  refine ⟨hne2, ?_, ?_, ?_, ?_, hnames.1.1, hnames.1.2, hnames.2⟩
  · intro hmem
    have := (hch ':' hmem).2
    simp at this
  · intro hmem
    have := (hch '\x00' hmem).1
    simp [plainChar] at this
  · intro hmem
    have := (hch '\n' hmem).1
    simp [plainChar] at this
  · intro hc
    have := (hch (ad.head hc) (List.head_mem hc)).2
    intro hx
    rw [hx] at this
    simp at this

theorem ldifNameValue_line (ad v : Bytes)
    (had : adOk ad = true) (hv : safe_string_p v = true) :
    ldifNameValue (ad ++ ':' :: ' ' :: v) = .ok (ad, .ok v) := by
  obtain ⟨hne, hcol, hnul, _, _, _, _, _⟩ := adOk_facts ad had
  unfold ldifNameValue
  rw [splitColon_append ad (' ' :: v) hcol]
  dsimp only
  rw [if_neg (by
    intro hor
    rcases hor with h1 | h1
    · exact hne h1
    · exact hnul h1)]
  rw [ldifValue_space v hv]

theorem ldifChangetype_add (body : List Bytes)
    (h : ∀ c ∈ body, ((splitColon c).map Prod.fst) ≠ some (str "changetype")) :
    ldifChangetype body = .ok (str "add") := by
  induction body with
  | nil => rfl
  | cons c rest ih =>
    unfold ldifChangetype
    cases hsc : splitColon c with
    | none => exact ih fun c2 h2 => h c2 (by simp [h2])
    | some p =>
      dsimp only
      rw [if_neg (by
        intro hx
        have := h c (by simp)
        rw [hsc] at this
        simp only [Option.map] at this
        exact this (by rw [hx]))]
      exact ih fun c2 h2 => h c2 (by simp [h2])

/-- Canonical attribute lines carry no changetype. -/
theorem ldifLines_no_changetype (ps : List (Bytes × Bytes))
    (h : ∀ p ∈ ps, adOk p.1 = true) :
    ∀ c ∈ ldifLinesOf ps,
      ((splitColon c).map Prod.fst) ≠ some (str "changetype") := by
  intro c hc
  simp only [ldifLinesOf, List.mem_map] at hc
  obtain ⟨p, hp, hcp⟩ := hc
  obtain ⟨_, hcol, _, _, _, hct, _, _⟩ := adOk_facts p.1 (h p hp)
  rw [← hcp, splitColon_append p.1 (' ' :: p.2) hcol]
  simp only [Option.map]
  intro hx
  exact hct (Option.some.inj hx)

theorem ldifAttrs_lines (ps : List (Bytes × Bytes))
    (h : ∀ p ∈ ps, adOk p.1 = true ∧ safe_string_p p.2 = true) :
    ldifAttrs (ldifLinesOf ps) = .ok ps := by
  induction ps with
  | nil => rfl
  | cons p rest ih =>
    obtain ⟨had, hval⟩ := h p (by simp)
    obtain ⟨hne, hcol, hnul, _, hhash, hct, hkey, hctl⟩ := adOk_facts p.1 had
    rcases hada : p.1 with _ | ⟨a, ad'⟩
    · exact absurd hada hne
    · rw [hada] at hcol hnul hct hkey hctl had hhash
      have hline : ldifLinesOf (p :: rest) =
          (a :: (ad' ++ ':' :: ' ' :: p.2)) :: ldifLinesOf rest := by
        simp [ldifLinesOf, hada]
      rw [hline]
      unfold ldifAttrs
      have hha : ¬ a = '#' := by
        have := hhash (by simp)
        simpa using this
      split
      · rename_i heq
        exact absurd (List.cons.inj heq).1 hha
      · rename_i hno
        rw [if_neg (by simp)]
        have hnv : ldifNameValue (a :: (ad' ++ ':' :: ' ' :: p.2)) =
            .ok (a :: ad', .ok p.2) := by
          have := ldifNameValue_line (a :: ad') p.2 had hval
          simpa using this
        rw [hnv]
        simp only [Except.bind]
        rw [if_neg (by
          intro hor
          rcases hor with h1 | h1
          · exact hct h1
          · exact hkey h1)]
        rw [if_neg hctl]
        rw [ih fun p2 h2 => h p2 (by simp [h2])]
        rw [← hada]
        rfl

theorem ldifPre_blank (rest : List (Bytes × Nat)) (pos n : Nat) (unt : Bool) :
    ldifPre (([], n) :: rest) pos unt = ldifPre rest (pos + n) unt := by
  conv_lhs => unfold ldifPre
  rw [if_pos rfl]

theorem ldifPre_dn (dn : Bytes) (rest : List (Bytes × Nat)) (pos n : Nat) :
    ldifPre (('d' :: 'n' :: ':' :: ' ' :: dn, n) :: rest) pos false =
      (ldifBody rest (pos + n) false).map fun r =>
        some ⟨pos, r.2, 'd' :: 'n' :: ':' :: ' ' :: dn, r.1⟩ := by
  conv_lhs => unfold ldifPre
  rw [if_neg (by simp)]
  rw [if_neg (by simp [headIsCont, isCont])]
  rw [show splitColon ('d' :: 'n' :: ':' :: ' ' :: dn) =
    some (['d', 'n'], ' ' :: dn) from by simp [splitColon]]
  dsimp only
  rw [if_neg (by
    intro hx
    have := hx.1
    simp [str] at this)]
  rw [if_pos (by decide)]
  rfl

theorem ldifDn_canonical (dn : Bytes) (pos endPos : Nat) (body : List Bytes)
    (hdn : dnOk dn = true) :
    ldifDn ⟨pos, endPos, 'd' :: 'n' :: ':' :: ' ' :: dn, body⟩ = .ok dn := by
  simp only [dnOk, Bool.and_eq_true, decide_eq_true_eq] at hdn
  unfold ldifDn ldifNameValue
  rw [show splitColon ('d' :: 'n' :: ':' :: ' ' :: dn) =
    some (['d', 'n'], ' ' :: dn) from by simp [splitColon]]
  dsimp only
  rw [if_neg (by decide)]
  simp only [Except.bind]
  rw [if_pos (by decide)]
  rw [show ldifValue (' ' :: dn) = .ok dn from ldifValue_space dn hdn.2]
  simp only [Except.bind]
  rw [if_pos hdn.1]

/-- The canonical ldapvi-key line of a key. -/
def keyLineOf (k : Bytes) : Bytes :=
  'l' :: 'd' :: 'a' :: 'p' :: 'v' :: 'i' :: '-' :: 'k' :: 'e' :: 'y' ::
    ':' :: ' ' :: k

theorem splitColon_keyLine (k : Bytes) :
    splitColon (keyLineOf k) = some (str "ldapvi-key", ' ' :: k) := by
  simp [keyLineOf, splitColon, str]

theorem ldifKey_keyline (k : Bytes) (lines : List Bytes)
    (hk : ∀ c ∈ k, plainChar c = true ∧ c ≠ ' ')
    (hct : ldifChangetype (keyLineOf k :: lines) = .ok (str "add")) :
    ldifKey (keyLineOf k :: lines) = .ok k := by
  unfold ldifKey
  rw [hct]
  simp only [Except.map]
  rw [if_pos trivial]
  rw [List.find?_cons_of_pos _ (by
    rw [splitColon_keyLine k]
    simp)]
  dsimp only
  rw [splitColon_keyLine k]
  dsimp only
  rcases k with _ | ⟨c, k'⟩
  · rfl
  · rw [show dropSpaces (' ' :: c :: k') = dropSpaces (c :: k') from by
      unfold dropSpaces; rw [List.dropWhile_cons, if_pos (by simp)]]
    unfold dropSpaces
    rw [List.dropWhile_cons, if_neg (by
      have := (hk c (by simp)).2
      simpa using this)]

theorem ldifKey_noKeyline (lines : List Bytes)
    (hct : ldifChangetype lines = .ok (str "add"))
    (h : ∀ c ∈ lines, ((splitColon c).map Prod.fst) ≠ some (str "ldapvi-key")) :
    ldifKey lines = .ok (str "add") := by
  unfold ldifKey
  rw [hct]
  simp only [Except.map]
  rw [if_pos trivial]
  rw [List.find?_eq_none.mpr (by
    intro c hc
    have := h c hc
    cases hsc : splitColon c with
    | none => simp
    | some p =>
      rw [hsc] at this
      simp only [Option.map] at this
      simp only [Option.elim]
      intro hx
      exact this (congrArg some (of_decide_eq_true hx)))]

/-- Delimiting a canonical record (no leading blank) at position 0. -/
theorem ldifRawRec_canonical0 (dn : Bytes) (body : List Bytes)
    (hnl : '\n' ∉ dn)
    (hbnl : ∀ l ∈ body, '\n' ∉ l)
    (hsimple : ∀ l ∈ body, isCont l = false ∧ stripCR l = l)
    (hcr : dn.getLast? ≠ some '\r')
    (hbody : ∀ l ∈ body, l ≠ []) :
    ldifRawRec (joinLines (('d' :: 'n' :: ':' :: ' ' :: dn) :: body)) 0 =
      .ok (some ⟨0,
        0 + (('d' :: 'n' :: ':' :: ' ' :: dn).length + 1) +
          ((body.map fun l => l.length + 1)).sum,
        'd' :: 'n' :: ':' :: ' ' :: dn, body⟩) := by
  have hnl2 : ∀ l ∈ ('d' :: 'n' :: ':' :: ' ' :: dn) :: body, '\n' ∉ l := by
    intro l hl
    rcases List.mem_cons.mp hl with h1 | h1
    · subst h1
      intro hmem
      simp only [List.mem_cons] at hmem
      rcases hmem with h2 | h2 | h2 | h2 | h2
      · exact absurd h2 (by decide)
      · exact absurd h2 (by decide)
      · exact absurd h2 (by decide)
      · exact absurd h2 (by decide)
      · exact hnl h2
    · exact hbnl l h1
  have hsimple2 : ∀ l ∈ ('d' :: 'n' :: ':' :: ' ' :: dn) :: body,
      isCont l = false ∧ stripCR l = l := by
    intro l hl
    rcases List.mem_cons.mp hl with h1 | h1
    · subst h1
      refine ⟨rfl, ?_⟩
      unfold stripCR
      rw [if_neg (by
        intro hx
        rw [List.getLast?_cons_cons, List.getLast?_cons_cons,
          List.getLast?_cons_cons] at hx
        rcases dn with _ | ⟨c, dn'⟩
        · simp at hx
        · rw [List.getLast?_cons_cons] at hx
          exact hcr hx)]
    · exact hsimple l h1
  unfold ldifRawRec
  rw [show (joinLines (('d' :: 'n' :: ':' :: ' ' :: dn) :: body)).drop 0 =
    joinLines (('d' :: 'n' :: ':' :: ' ' :: dn) :: body) from List.drop_zero _]
  rw [splitLines_join _ hnl2]
  dsimp only
  rw [logicalLines_simple _ hsimple2]
  simp only [List.map_cons, Option.isSome_none]
  rw [ldifPre_dn dn _ _ _, ldifBody_all body _ hbody]
  rfl

/-- Delimiting a canonical record behind one leading blank line. -/
theorem ldifRawRec_canonical1 (dn : Bytes) (body : List Bytes)
    (hnl : '\n' ∉ dn)
    (hbnl : ∀ l ∈ body, '\n' ∉ l)
    (hsimple : ∀ l ∈ body, isCont l = false ∧ stripCR l = l)
    (hcr : dn.getLast? ≠ some '\r')
    (hbody : ∀ l ∈ body, l ≠ []) :
    ldifRawRec (joinLines ([] :: ('d' :: 'n' :: ':' :: ' ' :: dn) :: body)) 0 =
      .ok (some ⟨1,
        1 + (('d' :: 'n' :: ':' :: ' ' :: dn).length + 1) +
          ((body.map fun l => l.length + 1)).sum,
        'd' :: 'n' :: ':' :: ' ' :: dn, body⟩) := by
  have hnl2 : ∀ l ∈ [] :: ('d' :: 'n' :: ':' :: ' ' :: dn) :: body, '\n' ∉ l := by
    intro l hl
    rcases List.mem_cons.mp hl with h1 | h1
    · subst h1; simp
    · rcases List.mem_cons.mp h1 with h2 | h2
      · subst h2
        intro hmem
        simp only [List.mem_cons] at hmem
        rcases hmem with h3 | h3 | h3 | h3 | h3
        · exact absurd h3 (by decide)
        · exact absurd h3 (by decide)
        · exact absurd h3 (by decide)
        · exact absurd h3 (by decide)
        · exact hnl h3
      · exact hbnl l h2
  have hsimple2 : ∀ l ∈ [] :: ('d' :: 'n' :: ':' :: ' ' :: dn) :: body,
      isCont l = false ∧ stripCR l = l := by
    intro l hl
    rcases List.mem_cons.mp hl with h1 | h1
    · subst h1; exact ⟨rfl, rfl⟩
    · rcases List.mem_cons.mp h1 with h2 | h2
      · subst h2
        refine ⟨rfl, ?_⟩
        unfold stripCR
        rw [if_neg (by
          intro hx
          rw [List.getLast?_cons_cons, List.getLast?_cons_cons,
            List.getLast?_cons_cons] at hx
          rcases dn with _ | ⟨c, dn'⟩
          · simp at hx
          · rw [List.getLast?_cons_cons] at hx
            exact hcr hx)]
      · exact hsimple l h2
  unfold ldifRawRec
  rw [show (joinLines ([] :: ('d' :: 'n' :: ':' :: ' ' :: dn) :: body)).drop 0 =
    joinLines ([] :: ('d' :: 'n' :: ':' :: ' ' :: dn) :: body) from
    List.drop_zero _]
  rw [splitLines_join _ hnl2]
  dsimp only
  rw [logicalLines_simple _ hsimple2]
  simp only [List.map_cons, Option.isSome_none]
  rw [ldifPre_blank, ldifPre_dn dn _ _ _, ldifBody_all body _ hbody]
  simp only [Except.map, List.length_nil]

theorem plain_no_nl (l : Bytes) (h : ∀ c ∈ l, plainChar c = true) :
    '\n' ∉ l := by
  intro hm
  have := h _ hm
  simp [plainChar] at this

theorem stripCR_plain (l : Bytes) (h : ∀ c ∈ l, plainChar c = true) :
    stripCR l = l := by
  unfold stripCR
  rw [if_neg]
  intro hx
  obtain ⟨hne2, heq⟩ := List.mem_getLast?_eq_getLast hx
  have hmem : '\r' ∈ l := heq ▸ List.getLast_mem hne2
  have := h _ hmem
  simp [plainChar] at this

theorem isCont_cons (a : Char) (l : Bytes) (h : ¬ a = ' ') :
    isCont (a :: l) = false := by
  unfold isCont
  split
  · rename_i heq
    exact absurd (List.cons.inj heq).1 h
  · rfl

theorem adOk_plain (ad : Bytes) (h : adOk ad = true) :
    ∀ c ∈ ad, plainChar c = true := by
  simp only [adOk, Bool.and_eq_true, List.all_eq_true] at h
  intro c hc
  have := h.1.2 c hc
  simp only [Bool.and_eq_true] at this
  exact this.1

theorem safe_plain (v : Bytes) (h : safe_string_p v = true) :
    ∀ c ∈ v, plainChar c = true := by
  simp only [safe_string_p, Bool.and_eq_true, List.all_eq_true] at h
  intro c hc
  have := h.1 c hc
  simpa [plainChar] using this

theorem line_plain (ad v : Bytes) (had : adOk ad = true)
    (hv : safe_string_p v = true) :
    ∀ c ∈ ad ++ ':' :: ' ' :: v, plainChar c = true := by
  intro c hc
  rcases List.mem_append.mp hc with h1 | h1
  · exact adOk_plain ad had c h1
  · rcases List.mem_cons.mp h1 with h2 | h2
    · subst h2; decide
    · rcases List.mem_cons.mp h2 with h3 | h3
      · subst h3; decide
      · exact safe_plain v hv c h3

theorem keyLine_plain (k : Bytes) (hk : keyOk k = true) :
    ∀ c ∈ keyLineOf k, plainChar c = true := by
  simp only [keyOk, Bool.and_eq_true, List.all_eq_true] at hk
  intro c hc
  simp only [keyLineOf, List.mem_cons] at hc
  rcases hc with h|h|h|h|h|h|h|h|h|h|h|h|h
  all_goals first
    | (subst h; decide)
    | (have hz := hk.1.2 c h
       simp only [Bool.and_eq_true] at hz
       exact hz.1)

/-- An empty-value extended line `ad SP LF` yields one zero-length
value. -/
theorem extBody_empty_value (ad : Bytes) (had : adOk ad = true) :
    extBody ((ad ++ ' ' :: ['\n']).length + 1) (ad ++ ' ' :: ['\n']) [] =
      .ok [(ad, [])] := by
  obtain ⟨hne, hcol0, hnul, hnl, hhash, _, _, _⟩ := adOk_facts ad had
  have hgen : ∀ c2 ∈ ad, ¬ (c2 = ' ' ∨ c2 = ':' ∨ c2 = '\n' ∨ c2 = '\x00') := by
    intro c2 h2
    have hp := adOk_plain ad had c2 h2
    simp only [adOk, Bool.and_eq_true, List.all_eq_true] at had
    have := had.1.2 c2 h2
    simp only [Bool.and_eq_true, Bool.not_eq_true', Bool.or_eq_false_iff,
      beq_eq_false_iff_ne] at this
    intro hbad
    rcases hbad with hb | hb | hb | hb
    · exact this.2.1.1.1 hb
    · exact this.2.1.1.2 hb
    · rw [hb] at hp; simp [plainChar] at hp
    · rw [hb] at hp; simp [plainChar] at hp
  rcases hada : ad with _ | ⟨a, ad'⟩
  · exact absurd hada hne
  · rw [hada] at hgen hhash
    have hha : ¬ a = '#' := by
      have := hhash (by simp)
      simpa using this
    have hanl : ¬ a = '\n' := by
      have := hgen a (by simp)
      intro hx
      exact this (Or.inr (Or.inr (Or.inl hx)))
    rw [show (a :: ad' ++ ' ' :: ['\n']).length + 1 =
      ((ad' ++ ' ' :: ['\n']).length + 1) + 1 from by simp]
    rw [show (a :: ad') ++ ' ' :: ['\n'] = a :: (ad' ++ ' ' :: ['\n'])
      from by simp]
    rw [extBody_cons_attr _ a _ [] hanl hha]
    rw [show extName (a :: (ad' ++ ' ' :: ['\n'])) =
      .ok (a :: ad', ' ', ['\n']) from by
      have := extName_append (a :: ad') ['\n'] ' ' (Or.inl rfl) hgen
      simpa using this]
    simp only [Except.bind]
    rfl

/-- An empty-value LDIF line `ad COLON` yields one zero-length
value. -/
theorem ldifAttrs_empty_value (ad : Bytes) (had : adOk ad = true) :
    ldifAttrs [ad ++ [':']] = .ok [(ad, [])] := by
  obtain ⟨hne, hcol, hnul, _, hhash, hct, hkey, hctl⟩ := adOk_facts ad had
  rcases hada : ad with _ | ⟨a, ad'⟩
  · exact absurd hada hne
  · rw [hada] at hcol hnul hct hkey hctl hhash
    have hha : ¬ a = '#' := by
      have := hhash (by simp)
      simpa using this
    rw [show (a :: ad') ++ [':'] = a :: (ad' ++ [':']) from by simp]
    unfold ldifAttrs
    split
    · rename_i heq
      exact absurd (List.cons.inj heq).1 hha
    · rw [if_neg (by simp)]
      have hnv : ldifNameValue (a :: (ad' ++ [':'])) =
          .ok (a :: ad', .ok []) := by
        unfold ldifNameValue
        rw [show a :: (ad' ++ [':']) = (a :: ad') ++ ':' :: [] from by simp,
          splitColon_append (a :: ad') [] hcol]
        dsimp only
        rw [if_neg (by
          intro hor
          rcases hor with h1 | h1
          · simp at h1
          · exact hnul h1)]
        rfl
      rw [hnv]
      simp only [Except.bind]
      rw [if_neg (by
        intro hor
        rcases hor with h1 | h1
        · exact hct h1
        · exact hkey h1)]
      rw [if_neg hctl]
      rfl

theorem joinLines_append (xs ys : List Bytes) :
    joinLines (xs ++ ys) = joinLines xs ++ joinLines ys := by
  induction xs with
  | nil => rfl
  | cons l rest ih =>
    show l ++ '\n' :: joinLines (rest ++ ys) =
      (l ++ '\n' :: joinLines rest) ++ joinLines ys
    rw [ih]
    simp

theorem joinLines_eq_flatten (ls : List Bytes) :
    joinLines ls = (ls.map fun l => l ++ ['\n']).flatten := by
  induction ls with
  | nil => rfl
  | cons l rest ih =>
    show l ++ '\n' :: joinLines rest = _
    simp [ih]

theorem getLast?_plain (l : Bytes) (h : ∀ c ∈ l, plainChar c = true) :
    l.getLast? ≠ some '\r' := by
  intro hx
  obtain ⟨hne2, heq⟩ := List.mem_getLast?_eq_getLast hx
  have hmem : '\r' ∈ l := heq ▸ List.getLast_mem hne2
  have := h _ hmem
  simp [plainChar] at this

theorem ldifAttrs_keyline (k : Bytes) (lines : List Bytes) :
    ldifAttrs (keyLineOf k :: lines) = ldifAttrs lines := by
  conv_lhs => unfold ldifAttrs
  rw [if_neg (by simp [keyLineOf])]
  rw [show ldifNameValue (keyLineOf k) =
    .ok (str "ldapvi-key", ldifValue (' ' :: k)) from by
    unfold ldifNameValue
    rw [splitColon_keyLine k]
    dsimp only
    rw [if_neg (by decide)]]
  simp only [Except.bind]
  rw [if_pos (Or.inr (by decide))]
  split <;> rfl

/-- The printed LDIF body of an all-safe short entry is its canonical
line list joined. -/
theorem print_ldif_body_lines (attrs : List (Bytes × List Bytes))
    (h : ∀ a ∈ attrs, ∀ v ∈ a.2, safe_string_p v = true ∧
      a.1.length + v.length + 2 ≤ 76) :
    (attrs.map fun a => (a.2.map (ldif_attr_line a.1)).flatten).flatten =
      joinLines (ldifLinesOf (pairsOf attrs)) := by
  induction attrs with
  | nil => rfl
  | cons a rest ih =>
    have hgrp : (a.2.map (ldif_attr_line a.1)).flatten =
        joinLines (ldifLinesOf (a.2.map fun v => (a.1, v))) := by
      rw [joinLines_eq_flatten]
      simp only [ldifLinesOf, List.map_map]
      congr 1
      apply List.map_congr_left
      intro v hv
      obtain ⟨hsafe, hlen⟩ := h a (by simp) v hv
      simp only [Function.comp]
      unfold ldif_attr_line
      rw [if_pos hsafe, fold76_id _ (by simp [str]; omega)]
      simp [str]
    have hrest : ∀ a2 ∈ rest, ∀ v ∈ a2.2, safe_string_p v = true ∧
        a2.1.length + v.length + 2 ≤ 76 :=
      fun a2 h2 v hv => h a2 (by simp [h2]) v hv
    simp only [List.map_cons, List.flatten_cons, hgrp, ih hrest]
    rw [show pairsOf (a :: rest) =
      (a.2.map fun v => (a.1, v)) ++ pairsOf rest from by simp [pairsOf]]
    rw [show ldifLinesOf ((a.2.map fun v => (a.1, v)) ++ pairsOf rest) =
      ldifLinesOf (a.2.map fun v => (a.1, v)) ++ ldifLinesOf (pairsOf rest)
      from by simp [ldifLinesOf]]
    rw [joinLines_append]

/-- LDIF-dialect half of the roundtrip: a canonical entry printed by
`print_ldif_entry` parses back exactly, key and record extent
included. -/
theorem ldif_print_parse (e : tentry) (k : Bytes)
    (he : entryOk e = true) (hk : keyOk k = true) :
    ldif_read (print_ldif_entry e (some k)) 0 =
      .ok (some (⟨k, 1, (print_ldif_entry e (some k)).length⟩, e)) := by
  obtain ⟨dn, attrs⟩ := e
  simp only [entryOk, Bool.and_eq_true, List.all_eq_true] at he
  obtain ⟨⟨⟨hdn, hdnlen⟩, hall⟩, hdis⟩ := he
  have hdnlen2 : dn.length ≤ 72 := by simpa using hdnlen
  have hsafe_dn : safe_string_p dn = true := by
    simp only [dnOk, Bool.and_eq_true] at hdn
    exact hdn.2
  have hkch : ∀ c ∈ k, plainChar c = true ∧ c ≠ ' ' := by
    simp only [keyOk, Bool.and_eq_true, List.all_eq_true] at hk
    intro c hc
    have := hk.1.2 c hc
    simp only [Bool.and_eq_true, Bool.not_eq_true', beq_eq_false_iff_ne]
      at this
    exact this
  have hpok : ∀ p ∈ pairsOf attrs, adOk p.1 = true ∧
      safe_string_p p.2 = true ∧ p.1.length + p.2.length + 2 ≤ 76 := by
    intro p hp
    simp only [pairsOf, List.mem_flatten, List.mem_map] at hp
    obtain ⟨l, ⟨a, ha, hla⟩, hpl⟩ := hp
    rw [← hla] at hpl
    simp only [List.mem_map] at hpl
    obtain ⟨v, hv, hvp⟩ := hpl
    obtain ⟨⟨hada, _⟩, hvals⟩ := hall a ha
    have hval := hvals v hv
    simp only [Bool.and_eq_true, valOk, decide_eq_true_eq] at hval
    rw [← hvp]
    exact ⟨hada, hval.1.1, hval.2⟩
  have hprint : print_ldif_entry ⟨dn, attrs⟩ (some k) =
      joinLines ([] :: ('d' :: 'n' :: ':' :: ' ' :: dn) ::
        keyLineOf k :: ldifLinesOf (pairsOf attrs)) := by
    have hbody := print_ldif_body_lines attrs (by
      intro a ha v hv
      obtain ⟨_, hvals⟩ := hall a ha
      have hval := hvals v hv
      simp only [Bool.and_eq_true, valOk, decide_eq_true_eq] at hval
      exact ⟨hval.1.1, hval.2⟩)
    unfold print_ldif_entry
    rw [if_pos hsafe_dn, fold76_id _ (by simp [str]; omega)]
    simp only [hbody]
    simp [joinLines, keyLineOf, str]
  have hbplain : ∀ l ∈ keyLineOf k :: ldifLinesOf (pairsOf attrs),
      ∀ c ∈ l, plainChar c = true := by
    intro l hl
    rcases List.mem_cons.mp hl with h1 | h1
    · subst h1
      exact keyLine_plain k hk
    · simp only [ldifLinesOf, List.mem_map] at h1
      obtain ⟨p, hp, hpl⟩ := h1
      obtain ⟨hada, hsafe, _⟩ := hpok p hp
      rw [← hpl]
      exact line_plain p.1 p.2 hada hsafe
  have hbnl : ∀ l ∈ keyLineOf k :: ldifLinesOf (pairsOf attrs), '\n' ∉ l :=
    fun l hl => plain_no_nl l (hbplain l hl)
  have hsimple : ∀ l ∈ keyLineOf k :: ldifLinesOf (pairsOf attrs),
      isCont l = false ∧ stripCR l = l := by
    intro l hl
    refine ⟨?_, stripCR_plain l (hbplain l hl)⟩
    rcases List.mem_cons.mp hl with h1 | h1
    · subst h1; rfl
    · simp only [ldifLinesOf, List.mem_map] at h1
      obtain ⟨p, hp, hpl⟩ := h1
      obtain ⟨hada, _, _⟩ := hpok p hp
      obtain ⟨hne, _, _, _, _, _, _, _⟩ := adOk_facts p.1 hada
      rcases hada2 : p.1 with _ | ⟨a, ad'⟩
      · exact absurd hada2 hne
      · have hasp : ¬ a = ' ' := by
          have := adOk_plain p.1 hada
          simp only [adOk, Bool.and_eq_true, List.all_eq_true] at hada
          have h2 := hada.1.2 a (by rw [hada2]; simp)
          simp only [Bool.and_eq_true, Bool.not_eq_true',
            Bool.or_eq_false_iff, beq_eq_false_iff_ne] at h2
          exact h2.2.1.1.1
        rw [← hpl, hada2]
        rw [show (a :: ad') ++ ':' :: ' ' :: p.2 =
          a :: (ad' ++ ':' :: ' ' :: p.2) from by simp]
        exact isCont_cons a _ hasp
  have hbody_ne : ∀ l ∈ keyLineOf k :: ldifLinesOf (pairsOf attrs),
      l ≠ [] := by
    intro l hl
    rcases List.mem_cons.mp hl with h1 | h1
    · subst h1; simp [keyLineOf]
    · simp only [ldifLinesOf, List.mem_map] at h1
      obtain ⟨p, hp, hpl⟩ := h1
      obtain ⟨hada, _, _⟩ := hpok p hp
      obtain ⟨hne, _, _, _, _, _, _, _⟩ := adOk_facts p.1 hada
      rcases hada2 : p.1 with _ | ⟨a, ad'⟩
      · exact absurd hada2 hne
      · rw [← hpl, hada2]
        simp
  have hrr := ldifRawRec_canonical1 dn
    (keyLineOf k :: ldifLinesOf (pairsOf attrs))
    (plain_no_nl dn (safe_plain dn hsafe_dn)) hbnl hsimple
    (getLast?_plain dn (safe_plain dn hsafe_dn)) hbody_ne
  have hnoct : ∀ c ∈ keyLineOf k :: ldifLinesOf (pairsOf attrs),
      ((splitColon c).map Prod.fst) ≠ some (str "changetype") := by
    intro c hc
    rcases List.mem_cons.mp hc with h1 | h1
    · subst h1
      rw [splitColon_keyLine k]
      simp only [Option.map]
      intro hx
      have := Option.some.inj hx
      simp [str] at this
    · exact ldifLines_no_changetype (pairsOf attrs)
        (fun p hp => (hpok p hp).1) c h1
  have hct : ldifChangetype (keyLineOf k :: ldifLinesOf (pairsOf attrs)) =
      .ok (str "add") := ldifChangetype_add _ hnoct
  have hkey : ldifKey (keyLineOf k :: ldifLinesOf (pairsOf attrs)) =
      .ok k := ldifKey_keyline k _ hkch hct
  have hattrs : ldifAttrs (keyLineOf k :: ldifLinesOf (pairsOf attrs)) =
      .ok (pairsOf attrs) := by
    rw [ldifAttrs_keyline]
    exact ldifAttrs_lines (pairsOf attrs)
      (fun p hp => ⟨(hpok p hp).1, (hpok p hp).2.1⟩)
  have hlen : (print_ldif_entry ⟨dn, attrs⟩ (some k)).length =
      1 + (('d' :: 'n' :: ':' :: ' ' :: dn).length + 1) +
        (((keyLineOf k :: ldifLinesOf (pairsOf attrs)).map
          fun l => l.length + 1)).sum := by
    rw [hprint, joinLines_length]
    simp only [List.map_cons, List.sum_cons, List.length_nil]
    omega
  unfold ldif_read
  rw [hprint, hrr]
  simp only [Except.bind]
  rw [hkey]
  simp only [Except.bind]
  rw [hct]
  simp only [Except.bind]
  rw [ldifDn_canonical dn _ _ _ hdn]
  simp only [Except.bind]
  rw [if_pos trivial, hattrs]
  simp only [Except.map]
  have hne2 : ∀ a ∈ attrs, a.2 ≠ [] := by
    intro a ha
    obtain ⟨⟨_, hne3⟩, _⟩ := hall a ha
    simpa using hne3
  rw [collectAttrs_pairsOf attrs hne2 hdis]
  rw [hprint] at hlen
  rw [hlen]

/-- LDIF side of the empty-value acceptance: a record whose one
attribute line is `ad COLON` parses to one zero-length value under the
default `add` key. -/
theorem ldif_read_empty_value (dn ad : Bytes)
    (hdn : dnOk dn = true) (had : adOk ad = true) :
    ldif_read (joinLines [('d' :: 'n' :: ':' :: ' ' :: dn), ad ++ [':']]) 0 =
      .ok (some (⟨str "add", 0,
        0 + (('d' :: 'n' :: ':' :: ' ' :: dn).length + 1) +
          (([ad ++ [':']].map fun l => l.length + 1)).sum⟩,
        ⟨dn, [(ad, [[]])]⟩)) := by
  have hsafe_dn : safe_string_p dn = true := by
    simp only [dnOk, Bool.and_eq_true] at hdn
    exact hdn.2
  have hlplain : ∀ c ∈ ad ++ [':'], plainChar c = true := by
    intro c hc
    rcases List.mem_append.mp hc with h1 | h1
    · exact adOk_plain ad had c h1
    · have : c = ':' := by simpa using h1
      subst this
      decide
  obtain ⟨hne, hcol, hnul, _, hhash, hct0, hkey0, hctl⟩ := adOk_facts ad had
  have hsc : splitColon (ad ++ [':']) = some (ad, []) := by
    rw [show ad ++ [':'] = ad ++ ':' :: [] from rfl]
    exact splitColon_append ad [] hcol
  have hrr := ldifRawRec_canonical0 dn [ad ++ [':']]
    (plain_no_nl dn (safe_plain dn hsafe_dn))
    (by
      intro l hl
      have : l = ad ++ [':'] := by simpa using hl
      subst this
      exact plain_no_nl _ hlplain)
    (by
      intro l hl
      have : l = ad ++ [':'] := by simpa using hl
      subst this
      refine ⟨?_, stripCR_plain _ hlplain⟩
      rcases hada : ad with _ | ⟨a, ad'⟩
      · exact absurd hada hne
      · have hasp : ¬ a = ' ' := by
          simp only [adOk, Bool.and_eq_true, List.all_eq_true] at had
          have h2 := had.1.2 a (by rw [hada]; simp)
          simp only [Bool.and_eq_true, Bool.not_eq_true',
            Bool.or_eq_false_iff, beq_eq_false_iff_ne] at h2
          exact h2.2.1.1.1
        simpa using isCont_cons a (ad' ++ [':']) hasp)
    (getLast?_plain dn (safe_plain dn hsafe_dn))
    (by
      intro l hl
      have : l = ad ++ [':'] := by simpa using hl
      subst this
      rcases hada : ad with _ | ⟨a, ad'⟩
      · exact absurd hada hne
      · simp [hada])
  have hnoct : ∀ c ∈ [ad ++ [':']],
      ((splitColon c).map Prod.fst) ≠ some (str "changetype") := by
    intro c hc
    have : c = ad ++ [':'] := by simpa using hc
    subst this
    rw [hsc]
    simp only [Option.map]
    intro hx
    exact hct0 (Option.some.inj hx)
  have hct : ldifChangetype [ad ++ [':']] = .ok (str "add") :=
    ldifChangetype_add _ hnoct
  have hkey : ldifKey [ad ++ [':']] = .ok (str "add") := by
    apply ldifKey_noKeyline _ hct
    intro c hc
    have : c = ad ++ [':'] := by simpa using hc
    subst this
    rw [hsc]
    simp only [Option.map]
    intro hx
    exact hkey0 (Option.some.inj hx)
  unfold ldif_read
  rw [hrr]
  simp only [Except.bind]
  rw [hkey]
  simp only [Except.bind]
  rw [hct]
  simp only [Except.bind]
  rw [ldifDn_canonical dn _ _ _ hdn]
  simp only [Except.bind]
  rw [if_pos trivial, ldifAttrs_empty_value ad had]
  rfl

/-! ## Claim theorems for the dialect front ends -/

/-- C10: both parsers accept an attribute line with an empty value —
`ad SP LF` in the extended dialect, `ad COLON LF` in LDIF — and the
parsed record carries exactly one value of length zero under that
description. -/
theorem parsers_accept_empty_value (dn ad k : Bytes)
    (hdn : dnOk dn = true) (had : adOk ad = true) (hk : keyOk k = true) :
    ext_read_entry (k ++ str " " ++ dn ++ str "\n" ++ ad ++ str " \n") =
      .ok (some (k, ⟨dn, [(ad, [[]])]⟩)) ∧
    ldif_read (str "dn: " ++ dn ++ str "\n" ++ ad ++ str ":\n") 0 =
      .ok (some (⟨str "add", 0,
        (str "dn: " ++ dn ++ str "\n" ++ ad ++ str ":\n").length⟩,
        ⟨dn, [(ad, [[]])]⟩)) := by
  have hsafe_dn : safe_string_p dn = true := by
    simp only [dnOk, Bool.and_eq_true] at hdn
    exact hdn.2
  have hdn_nl : '\n' ∉ dn := plain_no_nl dn (safe_plain dn hsafe_dn)
  have hdn_eq : '=' ∈ dn := by
    simp only [dnOk, Bool.and_eq_true, decide_eq_true_eq] at hdn
    exact hdn.1
  constructor
  · cases k with
    | nil => simp [keyOk] at hk
    | cons c k' =>
      have hshape : (c :: k') ++ str " " ++ dn ++ str "\n" ++ ad ++ str " \n" =
          c :: ((k' ++ ' ' :: dn) ++ '\n' :: (ad ++ ' ' :: ['\n'])) := by
        simp [str]
      rw [hshape,
        ext_read_entry_canonical c k' dn (ad ++ ' ' :: ['\n']) [(ad, [])]
          hk hdn_nl hdn_eq (extBody_empty_value ad had)]
      rfl
  · have hshape : str "dn: " ++ dn ++ str "\n" ++ ad ++ str ":\n" =
        joinLines [('d' :: 'n' :: ':' :: ' ' :: dn), ad ++ [':']] := by
      simp [joinLines, str]
    rw [hshape, ldif_read_empty_value dn ad hdn had]
    have hlen : (joinLines [('d' :: 'n' :: ':' :: ' ' :: dn),
        ad ++ [':']]).length =
        0 + (('d' :: 'n' :: ':' :: ' ' :: dn).length + 1) +
          (([ad ++ [':']].map fun l => l.length + 1)).sum := by
      rw [joinLines_length]
      simp
    rw [hlen]

/-- Witness for C10 at the test inputs: `description:` (LDIF) and
`cn SP` (extended) each parse to one empty value. -/
theorem parsers_accept_empty_value_witness :
    dnOk (str "cn=foo,dc=example,dc=com") = true ∧
    adOk (str "description") = true ∧
    keyOk (str "add") = true ∧
    ext_read_entry (str "add" ++ str " " ++ str "cn=foo,dc=example,dc=com" ++
        str "\n" ++ str "description" ++ str " \n") =
      .ok (some (str "add",
        ⟨str "cn=foo,dc=example,dc=com", [(str "description", [[]])]⟩)) ∧
    ldif_read (str "dn: " ++ str "cn=foo,dc=example,dc=com" ++ str "\n" ++
        str "description" ++ str ":\n") 0 =
      .ok (some (⟨str "add", 0,
        (str "dn: " ++ str "cn=foo,dc=example,dc=com" ++ str "\n" ++
          str "description" ++ str ":\n").length⟩,
        ⟨str "cn=foo,dc=example,dc=com", [(str "description", [[]])]⟩)) :=
  ⟨by decide, by decide, by decide,
   (parsers_accept_empty_value (str "cn=foo,dc=example,dc=com")
     (str "description") (str "add") (by decide) (by decide) (by decide)).1,
   (parsers_accept_empty_value (str "cn=foo,dc=example,dc=com")
     (str "description") (str "add") (by decide) (by decide) (by decide)).2⟩

/-- C8 counterexample: the extended printer emits the colon form
`cn: foo` for a SAFE value, not the claimed colon-free `cn foo`. -/
theorem ext_safe_line_counterexample :
    print_ldapvi_entry readable_utf8
        ⟨str "cn=foo,dc=example,dc=com", [(str "cn", [str "foo"])]⟩
        (some (str "add")) =
      str "\nadd cn=foo,dc=example,dc=com\ncn: foo\n" ∧
    ext_attr_line readable_utf8 (str "cn") (str "foo") = str "cn: foo\n" ∧
    ¬ ext_attr_line readable_utf8 (str "cn") (str "foo") = str "cn foo\n" := by
  decide

/-- C8 (amended): for every SAFE value, both dialects emit the
attribute line as name, colon, single space, value — the LDIF line
additionally unfolded only when at most 76 bytes long. -/
theorem attr_line_safe (readable : Bytes → Bool) (ad v : Bytes)
    (hsafe : safe_string_p v = true)
    (hlen : ad.length + v.length + 2 ≤ 76) :
    ext_attr_line readable ad v = ad ++ str ": " ++ v ++ str "\n" ∧
    ldif_attr_line ad v = ad ++ str ": " ++ v ++ str "\n" := by
  constructor
  · unfold ext_attr_line
    rw [if_pos hsafe]
  · unfold ldif_attr_line
    rw [if_pos hsafe, fold76_id _ (by simp [str]; omega)]

/-- Witness for the amended C8 at the `cn: foo` line of the test
suite. -/
theorem attr_line_safe_witness :
    safe_string_p (str "foo") = true ∧
    (str "cn").length + (str "foo").length + 2 ≤ 76 ∧
    ext_attr_line readable_utf8 (str "cn") (str "foo") =
      str "cn" ++ str ": " ++ str "foo" ++ str "\n" ∧
    ldif_attr_line (str "cn") (str "foo") =
      str "cn" ++ str ": " ++ str "foo" ++ str "\n" :=
  ⟨by decide, by decide,
   (attr_line_safe readable_utf8 (str "cn") (str "foo") (by decide)
     (by decide)).1,
   (attr_line_safe readable_utf8 (str "cn") (str "foo") (by decide)
     (by decide)).2⟩

/-- C7 counterexample: a value containing a backslash is SAFE, so the
extended printer emits it verbatim, but the extended literal reader
unescapes the backslash on the way back in: the entry with `cn` value
`a\b` reparses with value `ab`. -/
theorem roundtrip_backslash_counterexample :
    print_ldapvi_entry readable_utf8
        ⟨str "cn=foo,dc=com", [(str "cn", [['a', '\\', 'b']])]⟩
        (some (str "add")) =
      str "\nadd cn=foo,dc=com\ncn: a\\b\n" ∧
    ext_read_entry (str "\nadd cn=foo,dc=com\ncn: a\\b\n") =
      .ok (some (str "add",
        ⟨str "cn=foo,dc=com", [(str "cn", [str "ab"])]⟩)) ∧
    ¬ (str "ab" : Bytes) = ['a', '\\', 'b'] := by
  decide

/-- C7 (amended): for every canonical entry — safe DN and values, no
backslash in a value, descriptions pairwise distinct, lines short
enough to escape LDIF folding — and every record key, printing with
either dialect and reparsing with that dialect's reader yields the
original key, DN and attribute list exactly (hence equal value
multisets for every description). -/
theorem print_parse_roundtrip (readable : Bytes → Bool) (e : tentry)
    (k : Bytes) (he : entryOk e = true) (hk : keyOk k = true) :
    ext_read_entry (print_ldapvi_entry readable e (some k)) =
      .ok (some (k, e)) ∧
    ldif_read (print_ldif_entry e (some k)) 0 =
      .ok (some (⟨k, 1, (print_ldif_entry e (some k)).length⟩, e)) :=
  ⟨ext_print_parse readable e k he hk, ldif_print_parse e k he hk⟩

/-- The two-attribute entry of the roundtrip tests. -/
def roundtripEntry : tentry :=
  ⟨str "cn=foo,dc=example,dc=com",
   [(str "cn", [str "foo"]), (str "sn", [str "bar"])]⟩

/-- Witness for the amended C7 at the roundtrip scenario of the test
suite. -/
theorem print_parse_roundtrip_witness :
    entryOk roundtripEntry = true ∧
    keyOk (str "42") = true ∧
    ext_read_entry (print_ldapvi_entry readable_utf8 roundtripEntry
        (some (str "42"))) =
      .ok (some (str "42", roundtripEntry)) ∧
    ldif_read (print_ldif_entry roundtripEntry (some (str "42"))) 0 =
      .ok (some (⟨str "42", 1,
        (print_ldif_entry roundtripEntry (some (str "42"))).length⟩,
        roundtripEntry)) :=
  ⟨by decide, by decide,
   (print_parse_roundtrip readable_utf8 roundtripEntry (str "42")
     (by decide) (by decide)).1,
   (print_parse_roundtrip readable_utf8 roundtripEntry (str "42")
     (by decide) (by decide)).2⟩

end Ldapvi
